import Mathlib

/- Verification development for the two asynchronous traversal engines of
   src/src/lib/git/GitCommit.js: the Fetcher lifecycle base, the
   RecursiveCommitFetcher (history walker) and the DiffFetcher (tree diff
   engine).  The walker drives itself through one chain of promise
   continuations, so it is embedded as a fueled recursive function over an
   explicit state; the object store is a finite association list from
   content addresses to objects, and a failed lookup models a rejected
   promise.  Callback invocations are recorded in an event trace inside the
   state, and store calls are recorded in a resolve log, so that claims
   about callback and store-call behaviour become properties of the final
   state. -/

/-- A commit object as the store resolves it: its own content address, the
ordered list of parent addresses, and the committer timestamp in
milliseconds (the value of committer.moment.valueOf() in the source). -/
structure Commit where
  cid : Nat
  parents : List Nat
  ts : Int
deriving DecidableEq, Repr

/-- The object store seen by the walker: a finite table from content
addresses to commits.  getObject models repo.getObject; a missing address
models a rejected promise. -/
abbrev WRepo : Type := List (Nat × Commit)

/-- Resolution of an address against the store, as in repo.getObject. -/
def getObject (repo : WRepo) (a : Nat) : Option Commit :=
  (List.find? (fun e => e.1 == a) repo).map (fun e => e.2)

/-- One observable callback of the walker: an onUpdate invocation carrying
the emitted commit sequence, or an onComplete invocation carrying the value
of the running flag at the moment the callback runs. -/
inductive WEvent where
  | update (commits : List Commit)
  | complete (runningAtCallback : Bool)
deriving DecidableEq, Repr

/-- The mutable instance state of a RecursiveCommitFetcher, with an event
trace (callbacks issued so far), a resolve log (store calls issued so far,
each paired with whether its address was already marked fetched when the
call was issued) and a queue log (a snapshot of the queue addresses and the
fetched set after every queue rebuild), recording the observable history of
the run. -/
structure WState where
  running : Bool
  count : Nat
  fetched : List Nat
  queue : List Commit
  commits : List Commit
  events : List WEvent
  resolveLog : List (Nat × Bool)
  queueLog : List (List Nat × List Nat)
deriving DecidableEq, Repr

/-- Result of a fueled walker run: finished normally, aborted by a store
rejection, or out of model fuel (a truncation artefact of the embedding,
not a behaviour of the source). -/
inductive WRes where
  | done (s : WState)
  | fail (s : WState)
  | out (s : WState)
deriving DecidableEq, Repr

/-- The state carried by any walker result. -/
def stateOf : WRes → WState
  | WRes.done s => s
  | WRes.fail s => s
  | WRes.out s => s

/-- Whether a walker result is a normal completion. -/
def isDone : WRes → Bool
  | WRes.done _ => true
  | _ => false

/-- JavaScript Array.prototype.slice(0, e) on a list: a nonnegative end
index truncates, a negative end index counts from the end of the array. -/
def jsSliceTo (e : Int) (l : List Commit) : List Commit :=
  if 0 ≤ e then l.take e.toNat else l.take ((l.length : Int) + e).toNat

/-- The argument passed to onUpdate: the full commit list for the unbounded
sentinel -1, otherwise the list truncated to countRequired entries, as in
the conditional expression of processCommit. -/
def emitList (cr : Int) (l : List Commit) : List Commit :=
  if cr = -1 then l else jsSliceTo cr l

/-- The complete() method: cancel the task (clear the running flag) and
then invoke onComplete; the recorded flag is the value of running at the
moment the callback body executes, which is false because cancel runs
first. -/
def completeW (s : WState) : WState :=
  { s with running := false, events := s.events ++ [WEvent.complete false] }

/-- Ordering used to sort the queue: newest committer timestamp first.
The source comparator returns b.ts - a.ts, a descending stable sort. -/
def tsGe (a b : Commit) : Prop := b.ts ≤ a.ts

instance : DecidableRel tsGe := fun a b => inferInstanceAs (Decidable (b.ts ≤ a.ts))

instance : IsTotal Commit tsGe := ⟨fun a b => le_total b.ts a.ts⟩

instance : IsTrans Commit tsGe := ⟨fun _ _ _ h h2 => le_trans h2 h⟩

/-- The first half of a processCommit round: increment count, append the
commit to the collected list, and invoke onUpdate with the (possibly
truncated) list. -/
def emitStep (cr : Int) (c : Commit) (s : WState) : WState :=
  { s with
    count := s.count + 1,
    commits := s.commits ++ [c],
    events := s.events ++ [WEvent.update (emitList cr (s.commits ++ [c]))] }

/-- Parent scheduling: keep the parent addresses not already fetched
(the filter is evaluated against the fetched set before any marking, as in
the source, so duplicate addresses inside one parent list survive), mark
them all fetched, and log one store call per kept address together with
whether the address was marked at the moment the call was issued. -/
def scheduleParents (c : Commit) (s : WState) : List Nat × WState :=
  let pcs := c.parents.filter (fun p => !(s.fetched.contains p))
  let fetched2 := s.fetched ++ pcs
  (pcs,
    { s with
      fetched := fetched2,
      resolveLog := s.resolveLog ++ pcs.map (fun a => (a, fetched2.contains a)) })

/-- Promise.all over getObject for a list of addresses: all succeed or the
whole batch rejects. -/
def resolveAll (repo : WRepo) : List Nat → Option (List Commit)
  | [] => some []
  | a :: as =>
    match getObject repo a, resolveAll repo as with
    | some c, some cs => some (c :: cs)
    | _, _ => none

/-- Queue rebuild: append the newly resolved parents and re-sort the whole
queue newest-first (stable, matching the JavaScript sort), then record a
snapshot of the queue addresses and the fetched set in the queue log. -/
def enqueueStep (parents : List Commit) (s : WState) : WState :=
  let q := List.insertionSort tsGe (s.queue ++ parents)
  { s with
    queue := q,
    queueLog := s.queueLog ++ [(q.map (fun d => d.cid), s.fetched)] }

/-- The processCommit method of RecursiveCommitFetcher, fueled. Checks the
running flag first; emits the commit; completes when a finite target count
is reached; otherwise schedules and resolves unfetched parents, rebuilds
the sorted queue, completes if the queue is empty, and recurses into the
newest queued commit. -/
def processCommit (repo : WRepo) (cr : Int) : Nat → Commit → WState → WRes
  | 0, _, s => if s.running = false then WRes.done s else WRes.out s
  | fuel + 1, c, s =>
    if s.running = false then WRes.done s
    else
      let s1 := emitStep cr c s
      if cr ≠ -1 ∧ cr ≤ (s1.count : Int) then WRes.done (completeW s1)
      else
        match resolveAll repo (scheduleParents c s1).1 with
        | none => WRes.fail (scheduleParents c s1).2
        | some parents =>
          let s3 := enqueueStep parents (scheduleParents c s1).2
          match s3.queue with
          | [] => WRes.done (completeW s3)
          | q :: rest => processCommit repo cr fuel q { s3 with queue := rest }

/-- The initial state built by the constructor together with the run()
method: the root address is marked fetched before its store call is
issued, so the logged flag for that first store call is true. -/
def initWState (cid : Nat) : WState :=
  { running := true, count := 0, fetched := [cid], queue := [], commits := [],
    events := [], resolveLog := [(cid, true)], queueLog := [] }

/-- A full walker run from start(): mark the root fetched, resolve it, and
process it; a failed root resolution rejects the run. -/
def runWalker (repo : WRepo) (cid : Nat) (cr : Int) (fuel : Nat) : WRes :=
  match getObject repo cid with
  | none => WRes.fail (initWState cid)
  | some c => processCommit repo cr fuel c (initWState cid)

/-- The diamond-shaped concrete commit graph of the specification: root A
(address 1, parents B and C, timestamp 100), B (address 2, parent D,
timestamp 90), C (address 3, parent D, timestamp 95), D (address 4, no
parents, timestamp 80). -/
def diamondRepo : WRepo :=
  [ (1, { cid := 1, parents := [2, 3], ts := 100 }),
    (2, { cid := 2, parents := [4], ts := 90 }),
    (3, { cid := 3, parents := [4], ts := 95 }),
    (4, { cid := 4, parents := [], ts := 80 }) ]

/-- The payload of an onUpdate event, if the event is one. -/
def updPayload : WEvent → Option (List Commit)
  | WEvent.update l => some l
  | WEvent.complete _ => none

/-- The sequence of onUpdate payloads in an event trace. -/
def updatePayloads (l : List WEvent) : List (List Commit) :=
  l.filterMap updPayload

/-- The payload of the last onUpdate invocation of a trace. -/
def lastUpdate (l : List WEvent) : Option (List Commit) :=
  (updatePayloads l).getLast?

/-- Whether an event is an onComplete invocation. -/
def isCompleteEv : WEvent → Bool
  | WEvent.complete _ => true
  | WEvent.update _ => false

/-- Number of onComplete invocations in a trace. -/
def completeCount (l : List WEvent) : Nat := l.countP isCompleteEv

/-- A trace with no onComplete invocation at all. -/
def completeFree (l : List WEvent) : Bool := l.all (fun e => !(isCompleteEv e))

/-- Checks that a trace invokes onComplete at most once, only as its very
last event, and with the running flag already false at the callback. -/
def completeOnlyLast : List WEvent → Bool
  | [] => true
  | WEvent.update _ :: rest => completeOnlyLast rest
  | WEvent.complete b :: rest => !b && rest.isEmpty

/-- Whether the committer timestamps of a commit list are in descending
(non-increasing) order, the order the specification promises for the
emitted sequence. -/
def descByTs : List Commit → Bool
  | [] => true
  | [_] => true
  | a :: b :: rest => decide (b.ts ≤ a.ts) && descByTs (b :: rest)

/-- Store well-formedness from the data model: a content address resolves
to the commit carrying exactly that address. -/
def WfRepo (repo : WRepo) : Prop := ∀ e ∈ repo, e.2.cid = e.1

/-- A store on which every resolution a traversal can attempt succeeds:
each stored commit has all of its parents stored.  Together with a
resolvable root this makes every reachable address resolvable, which is
the claims reading of a commit graph in which all store resolutions
succeed. -/
def ClosedRepo (repo : WRepo) : Prop :=
  ∀ e ∈ repo, ∀ p ∈ e.2.parents, (getObject repo p).isSome = true

/-- Every stored commit lists each parent address at most once. -/
def NodupParents (repo : WRepo) : Prop := ∀ e ∈ repo, e.2.parents.Nodup

/-- Timestamps are monotone along parent edges: a parent is never newer
than its child. -/
def MonoTs (repo : WRepo) : Prop :=
  ∀ e ∈ repo, ∀ p ∈ e.2.parents, ∀ e2 ∈ repo, e2.1 = p → e2.2.ts ≤ e.2.ts

/-- Reachability in the stored commit graph: the root address, and any
parent address of a reachable, resolvable commit. -/
inductive Reach (repo : WRepo) (root : Nat) : Nat → Prop where
  | refl : Reach repo root root
  | step {a : Nat} {c : Commit} {p : Nat} :
      Reach repo root a → getObject repo a = some c → p ∈ c.parents →
      Reach repo root p

/-- Total number of parent-list slots in the store, a bound on how much
the queue can grow in one processing round. -/
def parentBound (repo : WRepo) : Nat :=
  (repo.map (fun e => e.2.parents.length)).sum

/-- Number of stored address slots not yet marked fetched. -/
def unfetchedCount (repo : WRepo) (s : WState) : Nat :=
  (repo.map (fun e => e.1)).countP (fun a => !(s.fetched.contains a))

/-- Termination measure of a walker state: every processing round strictly
decreases it, because marking a new parent costs more than the queue can
grow and a round without new parents shortens the queue. -/
def muW (repo : WRepo) (s : WState) : Nat :=
  unfetchedCount repo s * (parentBound repo + 1) + s.queue.length

/-- The addresses of a commit list. -/
def cids (l : List Commit) : List Nat := l.map (fun c => c.cid)

/-- The invariant of the walker at the entry of a processCommit round:
c is the commit in hand (popped from the queue or the resolved root) and
s the instance state.  The fetched set is exactly the processed commits,
the queued commits and the commit in hand; everything fetched is
reachable; queued and processed commits are stored under their own
address; parents of processed commits are all fetched; the trace holds no
onComplete and its last onUpdate carries the current emitted list; under
duplicate-free parent lists nothing is tracked twice; and under monotone
timestamps the processed sequence extended by the commit in hand is
descending and bounds the queue. -/
structure EInv (repo : WRepo) (root : Nat) (cr : Int) (c : Commit) (s : WState) :
    Prop where
  hrun : s.running = true
  hcount : s.count = s.commits.length
  hroot : root ∈ s.fetched
  hmem : ∀ a, a ∈ s.fetched ↔ (a ∈ cids s.commits ∨ a ∈ cids s.queue ∨ a = c.cid)
  hreach : ∀ a ∈ s.fetched, Reach repo root a
  hcur : getObject repo c.cid = some c
  hqueue : ∀ d ∈ s.queue, getObject repo d.cid = some d
  hstored : ∀ d ∈ s.commits, getObject repo d.cid = some d
  hclosure : ∀ d ∈ s.commits, ∀ p ∈ d.parents, p ∈ s.fetched
  hfree : completeFree s.events = true
  hlast : (s.commits = [] ∧ s.events = []) ∨
    lastUpdate s.events = some (emitList cr s.commits)
  hcnt_lt : cr = -1 ∨ (s.count : Int) < cr ∨ cr < 1
  hnodup : NodupParents repo → (cids s.commits ++ cids s.queue ++ [c.cid]).Nodup
  hrlogf : ∀ e ∈ s.resolveLog, e.2 = true
  hrlogm : ∀ e ∈ s.resolveLog, e.1 ∈ s.fetched
  hrlognd : NodupParents repo → (s.resolveLog.map (fun e => e.1)).Nodup
  hqlog : ∀ e ∈ s.queueLog,
    (∀ a ∈ e.1, a ∈ e.2) ∧ (NodupParents repo → e.1.Nodup)
  hsorted : MonoTs repo →
    List.Sorted tsGe (s.commits ++ [c]) ∧ ∀ d ∈ s.queue, d.ts ≤ c.ts

/-- What holds of the final state of a normally completed walker run. -/
structure WPost (repo : WRepo) (root : Nat) (cr : Int) (s : WState) : Prop where
  hrun : s.running = false
  hcount : s.count = s.commits.length
  hne : s.commits ≠ []
  hroot : root ∈ s.fetched
  hevents : ∃ pre, s.events = pre ++ [WEvent.complete false] ∧ completeFree pre = true
  hlast : lastUpdate s.events = some (emitList cr s.commits)
  hmem : ∀ a, a ∈ s.fetched ↔ (a ∈ cids s.commits ∨ a ∈ cids s.queue)
  hreach : ∀ a ∈ s.fetched, Reach repo root a
  hstored : ∀ d ∈ s.commits, getObject repo d.cid = some d
  hnodup : NodupParents repo → (cids s.commits ++ cids s.queue).Nodup
  hsorted : MonoTs repo → List.Sorted tsGe s.commits
  hbranch : (cr ≠ -1 ∧ cr ≤ (s.count : Int) ∧ (1 ≤ cr → (s.count : Int) = cr)) ∨
    (s.queue = [] ∧ (cr = -1 ∨ (s.count : Int) < cr) ∧
      ∀ d ∈ s.commits, ∀ p ∈ d.parents, p ∈ s.fetched)

/-- What holds of the logs of any walker state the run can stop in,
whether it completed, failed or ran out of fuel: every logged store call
was issued for an address already marked fetched; under duplicate-free
parent lists no address is resolved twice, no commit is processed twice,
and every queue snapshot is duplicate-free and inside the fetched set of
its moment. -/
structure LogOk (repo : WRepo) (s : WState) : Prop where
  hrlogf : ∀ e ∈ s.resolveLog, e.2 = true
  hrlogm : ∀ e ∈ s.resolveLog, e.1 ∈ s.fetched
  hrlognd : NodupParents repo → (s.resolveLog.map (fun e => e.1)).Nodup
  hqlog : ∀ e ∈ s.queueLog,
    (∀ a ∈ e.1, a ∈ e.2) ∧ (NodupParents repo → e.1.Nodup)
  hcommitnd : NodupParents repo → (cids s.commits).Nodup

/- ---------------------------------------------------------------------
   The tree diff engine (DiffFetcher).
   --------------------------------------------------------------------- -/

/-- A tree entry as the store resolves it: a file name, the content
address of the entry, and the result of the isDir capability check. -/
structure TEntry where
  name : String
  cid : Nat
  isDir : Bool
deriving DecidableEq, Repr

/-- A tree object: the list of its entries, in stored order. -/
structure GTree where
  files : List TEntry
deriving DecidableEq, Repr

/-- The object store seen by the diff engine for tree resolution. -/
abbrev TRepo : Type := List (Nat × GTree)

/-- Resolution of a tree address, as in repo.getObject. -/
def getTree (repo : TRepo) (a : Nat) : Option GTree :=
  (List.find? (fun e => e.1 == a) repo).map (fun e => e.2)

/-- The content store behind fetchContents, keyed by entry address. -/
abbrev Contents : Type := List (Nat × String)

/-- Fetching the contents of a file entry; a missing address models a
rejected promise. -/
def fetchContents (cs : Contents) (a : Nat) : Option String :=
  (List.find? (fun e => e.1 == a) cs).map (fun e => e.2)

/-- A changeset entry of getChanges: a name and the base-side and
comparison-side entries for it, either side possibly absent. -/
structure Change where
  name : String
  base : Option TEntry
  comp : Option TEntry
deriving DecidableEq, Repr

/-- The byName mapping of the source: for each name the last entry of the
list carrying it (later entries overwrite earlier ones in the object). -/
def lastByName (files : List TEntry) (n : String) : Option TEntry :=
  (files.filter (fun e => e.name == n)).getLast?

/-- First-occurrence deduplication with an accumulator of names already
seen, mirroring the insertion order of JavaScript object keys. -/
def firstDedupAux : List String → List String → List String
  | [], _ => []
  | a :: l, seen =>
    if seen.contains a then firstDedupAux l seen
    else a :: firstDedupAux l (a :: seen)

/-- The key list of a JavaScript object built by successive insertions:
each name once, in order of first occurrence. -/
def firstDedup (l : List String) : List String := firstDedupAux l []

/-- The filter of getChanges: a change is kept iff a side is absent or the
two content addresses differ. -/
def changeKeep (c : Change) : Bool :=
  c.base.isNone || c.comp.isNone ||
    !((c.base.map (fun e => e.cid)) == (c.comp.map (fun e => e.cid)))

/-- The entry list of the comparison side; an absent comparison tree
contributes an empty list, as (comp || \x7b\x7d).files || [] does. -/
def compFiles : Option GTree → List TEntry
  | some t => t.files
  | none => []

/-- The key enumeration of the fileset object of getChanges: base-side
names in insertion order, then comparison-side names not already seen. -/
def changeKeys (base : GTree) (comp : Option GTree) : List String :=
  let keysB := firstDedup (base.files.map (fun e => e.name))
  let keysC := firstDedup ((compFiles comp).map (fun e => e.name))
  keysB ++ keysC.filter (fun n => !(keysB.contains n))

/-- The fileset record getChanges builds for one name: the last base-side
entry of that name and the last comparison-side entry of that name,
either possibly absent. -/
def entryFor (base : GTree) (comp : Option GTree) (n : String) : Change :=
  { name := n, base := lastByName base.files n, comp := lastByName (compFiles comp) n }

/-- The getChanges method of DiffFetcher: build the name-keyed mappings of
both sides (last entry wins), enumerate base-side names then new
comparison-side names, and keep the names whose sides differ. -/
def getChanges (base : GTree) (comp : Option GTree) : List Change :=
  ((changeKeys base comp).map (entryFor base comp)).filter changeKeep

/-- A resolved diff record: the directory path the change was found under,
the entry name, and the fetched contents of each present side. -/
structure DRecord where
  path : Option String
  name : String
  change : Option String × Option String
deriving DecidableEq, Repr

/-- Sort key of the diff result list: case-sensitive lexicographic on the
name alone; the directory path takes no part in the ordering. -/
def nameLe (a b : DRecord) : Prop := a.name ≤ b.name

instance : DecidableRel nameLe := fun a b => inferInstanceAs (Decidable (a.name ≤ b.name))

instance : IsTotal DRecord nameLe := ⟨fun a b => le_total a.name b.name⟩

instance : IsTrans DRecord nameLe := ⟨fun _ _ _ h h2 => le_trans h h2⟩

/-- The re-sort the source applies after every insertion into the shared
result list (a stable sort by name, as the JavaScript comparator). -/
def sortByName (l : List DRecord) : List DRecord := List.insertionSort nameLe l

/-- One observable event of the diff engine: an onUpdate invocation with
the current result list, or the settlement of a rejected store call, the
moment at which the aggregate run fails. -/
inductive DEvent where
  | update (changes : List DRecord)
  | fail
deriving DecidableEq, Repr

/-- The mutable instance state of a DiffFetcher, with the event trace and
the log of store calls issued (tree resolutions and content fetches). -/
structure DState where
  running : Bool
  stateChanges : List DRecord
  events : List DEvent
  lookups : List Nat
deriving DecidableEq, Repr

/-- The state of a freshly started DiffFetcher. -/
def initDState : DState :=
  { running := true, stateChanges := [], events := [], lookups := [] }

/-- The onUpdate payloads of a diff event trace. -/
def updatePayloadsD (l : List DEvent) : List (List DRecord) :=
  l.filterMap (fun e => match e with | DEvent.update u => some u | DEvent.fail => none)

/-- Checks that no onUpdate invocation settles after a store rejection has
settled, the failure behaviour the specification asserts for both
engines. -/
def noUpdateAfterFail : List DEvent → Bool
  | [] => true
  | DEvent.fail :: rest =>
    rest.all (fun e => match e with | DEvent.update _ => false | DEvent.fail => true)
  | DEvent.update _ :: rest => noUpdateAfterFail rest

/-- The directory path for a recursive descent, as built by the source:
the current path extended with a slash and the entry name, or the bare
name at the root. -/
def extendPath (path : Option String) (n : String) : String :=
  match path with
  | some p => p ++ ("/") ++ n
  | none => n

/-- The two content fetches of a leaf change, issued together as in the
source (an absent side contributes no fetch and an absent content); the
whole pair rejects if a present side fails to resolve. -/
def contentsPair (cs : Contents) (c : Change) : Option (Option String × Option String) :=
  match c.base, c.comp with
  | none, none => some (none, none)
  | some e, none => (fetchContents cs e.cid).map (fun x => (some x, none))
  | none, some e => (fetchContents cs e.cid).map (fun x => (none, some x))
  | some e1, some e2 =>
    match fetchContents cs e1.cid, fetchContents cs e2.cid with
    | some x1, some x2 => some (some x1, some x2)
    | _, _ => none

/-- The content addresses a leaf change fetches (both present sides). -/
def leafCids (c : Change) : List Nat :=
  (match c.base with | some e => [e.cid] | none => []) ++
    (match c.comp with | some e => [e.cid] | none => [])

/-- The tail of one leaf task of fetchTrees: fetch the contents of both
present sides; on rejection the task fails without touching the result
list, otherwise insert the new record, re-sort the whole list by name, and
invoke onUpdate with it after re-checking the running flag. -/
def leafStep (cs : Contents) (path : Option String) (s : DState) (c : Change) : DState :=
  let s1 := { s with lookups := s.lookups ++ leafCids c }
  match contentsPair cs c with
  | none => { s1 with events := s1.events ++ [DEvent.fail] }
  | some pr =>
    let s2 := { s1 with
      stateChanges := sortByName (s1.stateChanges ++
        [{ path := path, name := c.name, change := pr }]) }
    if s2.running = false then s2
    else { s2 with events := s2.events ++ [DEvent.update s2.stateChanges] }

/-- The store calls issued by the opening Promise.all of fetchTrees: the
base tree always, the comparison tree when its address is present. -/
def treeCallCids (t1 : Nat) (t2 : Option Nat) : List Nat :=
  [t1] ++ (match t2 with | some a => [a] | none => [])

/-- The fetchTrees method of DiffFetcher, fueled on recursion depth.  The
concurrent per-change tasks of the source are embedded as settling in
changeset order: every task runs to settlement regardless of the failure
of a sibling (a rejected task only rejects the aggregate), which is one
realizable schedule of the single-threaded event loop.  Each task checks
the running flag before doing anything, recurses when both sides are
directory entries, and otherwise runs the leaf content fetch. -/
def fetchTrees (repo : TRepo) (cs : Contents) :
    Nat → Nat → Option Nat → Option String → DState → DState
  | 0, _, _, _, s => s
  | fuel + 1, t1, t2, path, s =>
    if s.running = false then s
    else
      let s0 := { s with lookups := s.lookups ++ treeCallCids t1 t2 }
      match getTree repo t1,
        (match t2 with
         | none => some (Option.none)
         | some a2 => (getTree repo a2).map some) with
      | some base, some compT =>
        (getChanges base compT).foldl
          (fun acc c =>
            if acc.running = false then acc
            else
              match c.base, c.comp with
              | some e1, some e2 =>
                if e1.isDir && e2.isDir then
                  fetchTrees repo cs fuel e1.cid (some e2.cid)
                    (some (extendPath path c.name)) acc
                else leafStep cs path acc c
              | _, _ => leafStep cs path acc c)
          s0
      | _, _ => { s0 with events := s0.events ++ [DEvent.fail] }

/- ---------------------------------------------------------------------
   Concrete inputs used by scenario theorems and counterexamples.
   --------------------------------------------------------------------- -/

/-- A two-commit graph with a root older than its parent: root at address
1 with timestamp 10, its parent at address 2 with timestamp 100.  Clock
skew like this is legal in the data model, which promises nothing about
timestamps. -/
def skewRepo : WRepo :=
  [ (1, { cid := 1, parents := [2], ts := 10 }),
    (2, { cid := 2, parents := [], ts := 100 }) ]

/-- A graph whose root lists the same parent address twice, which the
data model (an ordered list of parent addresses) does not forbid. -/
def dupParentRepo : WRepo :=
  [ (1, { cid := 1, parents := [2, 2], ts := 100 }),
    (2, { cid := 2, parents := [], ts := 90 }) ]

/-- A store with one flat tree at address 10 holding two file entries. -/
def failTreeRepo : TRepo :=
  [ (10, { files := [ { name := ("a"), cid := 100, isDir := false },
                      { name := ("b"), cid := 101, isDir := false } ] }) ]

/-- Contents for failTreeRepo that resolve entry b but reject entry a,
so the first settling task fails while its sibling still succeeds. -/
def failContents : Contents := [ (101, ("bee")) ]

/-- A store with two distinct addresses resolving to trees with the same
entry list, the concrete instance of two recursively identical trees. -/
def identTreeRepo : TRepo :=
  [ (20, { files := [ { name := ("x"), cid := 7, isDir := false } ] }),
    (21, { files := [ { name := ("x"), cid := 7, isDir := false } ] }) ]

/- ---------------------------------------------------------------------
   Trace-shape lemmas for the walker event trace.
   --------------------------------------------------------------------- -/

theorem completeFree_append (l1 l2 : List WEvent) :
    completeFree (l1 ++ l2) = (completeFree l1 && completeFree l2) := by
  simp [completeFree, List.all_append]

theorem completeFree_update (l : List WEvent) (u : List Commit) :
    completeFree (l ++ [WEvent.update u]) = completeFree l := by
  simp [completeFree_append, completeFree, isCompleteEv]

theorem completeOnlyLast_of_free (l : List WEvent) (h : completeFree l = true) :
    completeOnlyLast l = true := by
  induction l with
  | nil => rfl
  | cons e rest ih =>
    cases e with
    | update u =>
      rw [completeFree] at h
      simp only [List.all_cons, Bool.and_eq_true] at h
      exact (by simpa [completeOnlyLast] using ih (by simpa [completeFree] using h.2))
    | complete b => simp [completeFree, isCompleteEv] at h

theorem completeOnlyLast_append_complete (l : List WEvent) (h : completeFree l = true) :
    completeOnlyLast (l ++ [WEvent.complete false]) = true := by
  induction l with
  | nil => rfl
  | cons e rest ih =>
    cases e with
    | update u =>
      rw [completeFree] at h
      simp only [List.all_cons, Bool.and_eq_true] at h
      simpa [completeOnlyLast] using ih (by simpa [completeFree] using h.2)
    | complete b => simp [completeFree, isCompleteEv] at h

theorem completeCount_of_free (l : List WEvent) (h : completeFree l = true) :
    completeCount l = 0 := by
  simp only [completeFree, List.all_eq_true, Bool.not_eq_eq_eq_not, Bool.not_true] at h
  simp [completeCount, List.countP_eq_zero]
  intro e he
  simpa using h e he

theorem events_scheduleParents (c : Commit) (s : WState) :
    ((scheduleParents c s).2).events = s.events := rfl

theorem events_enqueueStep (ps : List Commit) (s : WState) :
    (enqueueStep ps s).events = s.events := rfl

theorem events_emitStep (cr : Int) (c : Commit) (s : WState) :
    (emitStep cr c s).events = s.events ++ [WEvent.update (emitList cr (s.commits ++ [c]))] :=
  rfl

/-- Processing keeps the onComplete-at-most-once-and-last trace shape:
from a state whose trace has no complete event, any outcome of
processCommit has a trace in which a complete event can only occur as the
final event, with the running flag already cleared. -/
theorem processCommit_completeOnlyLast (repo : WRepo) (cr : Int) :
    ∀ (fuel : Nat) (c : Commit) (s : WState), completeFree s.events = true →
      completeOnlyLast (stateOf (processCommit repo cr fuel c s)).events = true := by
  intro fuel
  induction fuel with
  | zero =>
    intro c s h
    by_cases hr : s.running = false <;>
      simp [processCommit, hr, stateOf, completeOnlyLast_of_free _ h]
  | succ fuel ih =>
    intro c s h
    by_cases hr : s.running = false
    · simp [processCommit, hr, stateOf, completeOnlyLast_of_free _ h]
    · have h1 : completeFree (emitStep cr c s).events = true := by
        rw [events_emitStep, completeFree_update]; exact h
      rw [processCommit, if_neg hr]
      by_cases hcnt : cr ≠ -1 ∧ cr ≤ ((emitStep cr c s).count : Int)
      · rw [if_pos hcnt]
        simpa [stateOf, completeW] using completeOnlyLast_append_complete _ h1
      · rw [if_neg hcnt]
        cases hres : resolveAll repo (scheduleParents c (emitStep cr c s)).1 with
        | none =>
          simp only [hres]
          simpa [stateOf, events_scheduleParents] using completeOnlyLast_of_free _ h1
        | some parents =>
          simp only [hres]
          cases hq : (enqueueStep parents (scheduleParents c (emitStep cr c s)).2).queue with
          | nil =>
            simp only [hq]
            simpa [stateOf, completeW, events_enqueueStep, events_scheduleParents] using
              completeOnlyLast_append_complete _ h1
          | cons q rest =>
            simp only [hq]
            exact ih q _ (by simpa [events_enqueueStep, events_scheduleParents] using h1)

/-- A processCommit run that ends in a store rejection has invoked no
onComplete beyond those already in its starting trace. -/
theorem processCommit_fail_completeFree (repo : WRepo) (cr : Int) :
    ∀ (fuel : Nat) (c : Commit) (s s2 : WState), completeFree s.events = true →
      processCommit repo cr fuel c s = WRes.fail s2 → completeFree s2.events = true := by
  intro fuel
  induction fuel with
  | zero =>
    intro c s s2 h hrun
    by_cases hr : s.running = false <;> simp [processCommit, hr] at hrun
  | succ fuel ih =>
    intro c s s2 h hrun
    by_cases hr : s.running = false
    · simp [processCommit, hr] at hrun
    · have h1 : completeFree (emitStep cr c s).events = true := by
        rw [events_emitStep, completeFree_update]; exact h
      rw [processCommit, if_neg hr] at hrun
      by_cases hcnt : cr ≠ -1 ∧ cr ≤ ((emitStep cr c s).count : Int)
      · rw [if_pos hcnt] at hrun; simp at hrun
      · rw [if_neg hcnt] at hrun
        cases hres : resolveAll repo (scheduleParents c (emitStep cr c s)).1 with
        | none =>
          simp only [hres, WRes.fail.injEq] at hrun
          subst hrun
          simpa [events_scheduleParents] using h1
        | some parents =>
          simp only [hres] at hrun
          cases hq : (enqueueStep parents (scheduleParents c (emitStep cr c s)).2).queue with
          | nil => simp only [hq] at hrun; simp at hrun
          | cons q rest =>
            simp only [hq] at hrun
            exact ih q _ s2 (by simpa [events_enqueueStep, events_scheduleParents] using h1)
              hrun

/-- A cancelled walker continuation does nothing: with the running flag
false, processCommit returns its state unchanged, so it emits no callback
and issues no store call. -/
theorem processCommit_cancelled (repo : WRepo) (cr : Int) (fuel : Nat) (c : Commit)
    (s : WState) (h : s.running = false) : processCommit repo cr fuel c s = WRes.done s := by
  cases fuel <;> simp [processCommit, h]

/-- A cancelled diff continuation does nothing: with the running flag
false, fetchTrees returns its state unchanged. -/
theorem fetchTrees_cancelled (repo : TRepo) (cs : Contents) (fuel t1 : Nat)
    (t2 : Option Nat) (path : Option String) (s : DState) (h : s.running = false) :
    fetchTrees repo cs fuel t1 t2 path s = s := by
  cases fuel with
  | zero => rfl
  | succ fuel => simp [fetchTrees, h]

/- ---------------------------------------------------------------------
   Claim theorems: cancellation, failure, lifecycle and scenarios.
   --------------------------------------------------------------------- -/

/-- C2: cancellation is cooperative and total.  Once the running flag is
false, a walker continuation returns its state unchanged (no onUpdate, no
onComplete, no new store calls beyond those already logged) and a diff
continuation likewise; in particular cancelling right after start, before
the root resolution settles, yields a run with zero onUpdate and zero
onComplete invocations even though the root store call was already
issued. -/
theorem claim_C2 :
    (∀ (repo : WRepo) (cr : Int) (fuel : Nat) (c : Commit) (s : WState),
        s.running = false → processCommit repo cr fuel c s = WRes.done s) ∧
    (∀ (repo : TRepo) (cs : Contents) (fuel t1 : Nat) (t2 : Option Nat)
        (path : Option String) (s : DState),
        s.running = false → fetchTrees repo cs fuel t1 t2 path s = s) ∧
    (∀ (repo : WRepo) (cr : Int) (fuel : Nat) (c : Commit) (cid : Nat),
        processCommit repo cr fuel c { initWState cid with running := false } =
          WRes.done { initWState cid with running := false } ∧
        ({ initWState cid with running := false } : WState).events = [] ∧
        ({ initWState cid with running := false } : WState).resolveLog = [(cid, true)]) :=
  ⟨processCommit_cancelled, fetchTrees_cancelled,
    fun repo cr fuel c _ =>
      ⟨processCommit_cancelled repo cr fuel c _ rfl, rfl, rfl⟩⟩

/-- Witness for C2 at concrete inputs. -/
theorem claim_C2_witness :
    ({ initWState 5 with running := false } : WState).running = false ∧
    processCommit [] (-1) 4 { cid := 5, parents := [], ts := 0 }
        { initWState 5 with running := false } =
      WRes.done { initWState 5 with running := false } ∧
    fetchTrees [] [] 4 10 none none { initDState with running := false } =
      { initDState with running := false } :=
  ⟨rfl, claim_C2.1 [] (-1) 4 { cid := 5, parents := [], ts := 0 } _ rfl,
    claim_C2.2.1 [] [] 4 10 none none _ rfl⟩

/-- C10: in every walker run, whatever the store, target count and fuel,
the event trace invokes onComplete at most once, only as the very last
event, and with the running flag already false at the moment the callback
runs; hence no onUpdate ever follows an onComplete. -/
theorem claim_C10 (repo : WRepo) (cid : Nat) (cr : Int) (fuel : Nat) :
    completeOnlyLast (stateOf (runWalker repo cid cr fuel)).events = true := by
  rw [runWalker]
  cases hres : getObject repo cid with
  | none => rfl
  | some c => exact processCommit_completeOnlyLast repo cr fuel c _ rfl

/-- C9: a run with countRequired = 0 still resolves and processes the
root commit, invokes onUpdate exactly once with the empty truncated list,
then invokes onComplete exactly once, and never schedules a parent: the
resolve log holds only the root store call. -/
theorem claim_C9 (repo : WRepo) (root : Nat) (c : Commit) (fuel : Nat)
    (hres : getObject repo root = some c) (hfuel : 1 ≤ fuel) :
    runWalker repo root 0 fuel =
      WRes.done { running := false, count := 1, fetched := [root], queue := [],
                  commits := [c], events := [WEvent.update [], WEvent.complete false],
                  resolveLog := [(root, true)], queueLog := [] } := by
  obtain ⟨f, rfl⟩ : ∃ f, fuel = f + 1 := ⟨fuel - 1, by omega⟩
  rw [runWalker, hres]
  rfl

/-- Witness for C9: the root of the diamond graph with count target 0. -/
theorem claim_C9_witness :
    getObject diamondRepo 1 = some { cid := 1, parents := [2, 3], ts := 100 } ∧
    runWalker diamondRepo 1 0 7 =
      WRes.done { running := false, count := 1, fetched := [1], queue := [],
                  commits := [{ cid := 1, parents := [2, 3], ts := 100 }],
                  events := [WEvent.update [], WEvent.complete false],
                  resolveLog := [(1, true)], queueLog := [] } :=
  ⟨by decide, claim_C9 diamondRepo 1 { cid := 1, parents := [2, 3], ts := 100 } 7
    (by decide) (by decide)⟩

/-- C8: on the concrete diamond graph with the unbounded sentinel the
walker finishes, emits A, C, B, D in that order, and resolves each of the
four addresses exactly once even though D is reachable via two paths. -/
theorem claim_C8 :
    isDone (runWalker diamondRepo 1 (-1) 10) = true ∧
    (stateOf (runWalker diamondRepo 1 (-1) 10)).commits.map (fun c => c.cid) =
      [1, 3, 2, 4] ∧
    (stateOf (runWalker diamondRepo 1 (-1) 10)).resolveLog.map (fun e => e.1) =
      [1, 2, 3, 4] :=
  ⟨by decide, by decide, by decide⟩

/-- C7 as stated is false: on a flat tree whose first change rejects its
content fetch while its sibling change still resolves, the sibling task
invokes onUpdate after the rejection has settled, so a store failure does
not prevent further callbacks of the diff engine. -/
theorem claim_C7_counterexample :
    noUpdateAfterFail
        (fetchTrees failTreeRepo failContents 3 10 none none initDState).events = false ∧
    (fetchTrees failTreeRepo failContents 3 10 none none initDState).events =
      [DEvent.fail,
        DEvent.update [{ path := none, name := ("b"), change := (some ("bee"), none) }]] :=
  ⟨by decide, by decide⟩

/-- C7 (amended): a store rejection still aborts the aggregate run with
that failure and is never retried; for the History Walker no callback at
all follows the failure, in particular onComplete never fires, and for
the diff engine a root-tree resolution failure produces a failed run with
no callbacks; only sibling tasks of the diff engine that were already in
flight may still invoke onUpdate after a failure. -/
theorem claim_C7_amended :
    (∀ (repo : WRepo) (cid : Nat) (cr : Int) (fuel : Nat) (s2 : WState),
        runWalker repo cid cr fuel = WRes.fail s2 → completeCount s2.events = 0) ∧
    (∀ (repo : TRepo) (cs : Contents) (fuel t1 : Nat) (t2 : Option Nat)
        (path : Option String),
        getTree repo t1 = none →
        (fetchTrees repo cs (fuel + 1) t1 t2 path initDState).events = [DEvent.fail] ∧
        (fetchTrees repo cs (fuel + 1) t1 t2 path initDState).stateChanges = []) := by
  constructor
  · intro repo cid cr fuel s2 hrun
    rw [runWalker] at hrun
    cases hres : getObject repo cid with
    | none =>
      simp only [hres, WRes.fail.injEq] at hrun
      subst hrun
      rfl
    | some c =>
      simp only [hres] at hrun
      exact completeCount_of_free _
        (processCommit_fail_completeFree repo cr fuel c (initWState cid) s2 rfl hrun)
  · intro repo cs fuel t1 t2 path h
    constructor <;> simp [fetchTrees, h, initDState]

/-- Witness for C7 (amended) at concrete inputs: an empty store rejects
the root resolution of both engines. -/
theorem claim_C7_amended_witness :
    (runWalker [] 5 (-1) 3 = WRes.fail (initWState 5) ∧
      completeCount (initWState 5).events = 0) ∧
    (getTree [] 10 = none ∧
      (fetchTrees [] [] 4 10 none none initDState).events = [DEvent.fail]) :=
  ⟨⟨by decide, claim_C7_amended.1 [] 5 (-1) 3 (initWState 5) (by decide)⟩,
    ⟨rfl, (claim_C7_amended.2 [] [] 3 10 none none rfl).1⟩⟩

/-- C1 as stated is false: on a two-commit graph whose root is older than
its parent (legal clock skew), the finite run with countRequired = 2
completes with a final onUpdate sequence of the requested length that is
not in descending committer-timestamp order. -/
theorem claim_C1_counterexample :
    isDone (runWalker skewRepo 1 2 10) = true ∧
    lastUpdate (stateOf (runWalker skewRepo 1 2 10)).events =
      some [{ cid := 1, parents := [2], ts := 10 },
            { cid := 2, parents := [], ts := 100 }] ∧
    descByTs [{ cid := 1, parents := [2], ts := 10 },
              { cid := 2, parents := [], ts := 100 }] = false :=
  ⟨by decide, by decide, by decide⟩

/-- C3 as stated is false: when the root lists the same parent address
twice, that address survives the not-yet-fetched filter twice in the same
batch, is resolved twice, and appears twice in the final emitted
sequence. -/
theorem claim_C3_counterexample :
    isDone (runWalker dupParentRepo 1 (-1) 10) = true ∧
    (stateOf (runWalker dupParentRepo 1 (-1) 10)).commits.map (fun c => c.cid) =
      [1, 2, 2] :=
  ⟨by decide, by decide⟩

/-- C4 as stated is false: with a duplicated parent address inside one
parent list the walker issues two store calls for the same address, so an
address is resolved twice and the queue briefly holds it twice. -/
theorem claim_C4_counterexample :
    (stateOf (runWalker dupParentRepo 1 (-1) 10)).resolveLog.map (fun e => e.1) =
      [1, 2, 2] ∧
    ¬ ((stateOf (runWalker dupParentRepo 1 (-1) 10)).resolveLog.map
        (fun e => e.1)).Nodup :=
  ⟨by decide, by decide⟩

/- ---------------------------------------------------------------------
   Properties of the changeset computation (getChanges).
   --------------------------------------------------------------------- -/

theorem mem_of_getLast?_eq_some {α : Type} {l : List α} {a : α}
    (h : l.getLast? = some a) : a ∈ l := by
  obtain ⟨hne, rfl⟩ := List.mem_getLast?_eq_getLast h
  exact List.getLast_mem hne

theorem mem_firstDedupAux (a : String) :
    ∀ (l seen : List String), a ∈ firstDedupAux l seen ↔ a ∈ l ∧ a ∉ seen := by
  intro l
  induction l with
  | nil => intro seen; simp [firstDedupAux]
  | cons b rest ih =>
    intro seen
    by_cases hb : seen.contains b
    · rw [firstDedupAux, if_pos hb, ih]
      simp only [List.mem_cons]
      constructor
      · rintro ⟨h1, h2⟩; exact ⟨Or.inr h1, h2⟩
      · rintro ⟨h1 | h1, h2⟩
        · exact absurd (h1 ▸ (List.elem_iff.mp hb)) h2
        · exact ⟨h1, h2⟩
    · rw [firstDedupAux, if_neg hb]
      simp only [List.mem_cons, ih, List.mem_cons, not_or]
      constructor
      · rintro (rfl | ⟨h1, h2, h3⟩)
        · exact ⟨Or.inl rfl, fun hs => hb (List.elem_iff.mpr hs)⟩
        · exact ⟨Or.inr h1, h3⟩
      · rintro ⟨rfl | h1, h2⟩
        · exact Or.inl rfl
        · by_cases hab : a = b
          · exact Or.inl hab
          · exact Or.inr ⟨h1, hab, h2⟩

theorem mem_firstDedup (a : String) (l : List String) :
    a ∈ firstDedup l ↔ a ∈ l := by
  rw [firstDedup, mem_firstDedupAux]
  simp

theorem nodup_firstDedupAux : ∀ (l seen : List String), (firstDedupAux l seen).Nodup := by
  intro l
  induction l with
  | nil => intro seen; simp [firstDedupAux]
  | cons b rest ih =>
    intro seen
    by_cases hb : seen.contains b
    · rw [firstDedupAux, if_pos hb]; exact ih seen
    · rw [firstDedupAux, if_neg hb]
      refine List.nodup_cons.mpr ⟨fun hmem => ?_, ih (b :: seen)⟩
      exact ((mem_firstDedupAux b rest (b :: seen)).mp hmem).2 (List.mem_cons_self b seen)

theorem nodup_firstDedup (l : List String) : (firstDedup l).Nodup :=
  nodup_firstDedupAux l []

theorem firstDedupAux_eq_self : ∀ (l seen : List String), l.Nodup →
    (∀ a ∈ l, a ∉ seen) → firstDedupAux l seen = l := by
  intro l
  induction l with
  | nil => intro seen _ _; rfl
  | cons b rest ih =>
    intro seen hnd hdis
    have hb : ¬ seen.contains b = true := fun hc =>
      hdis b (List.mem_cons_self b rest) (List.elem_iff.mp hc)
    rw [firstDedupAux, if_neg hb]
    have hnd2 := List.nodup_cons.mp hnd
    rw [ih (b :: seen) hnd2.2 ?_]
    intro a ha
    simp only [List.mem_cons, not_or]
    exact ⟨fun hab => hnd2.1 (hab ▸ ha), hdis a (List.mem_cons_of_mem b ha)⟩

theorem firstDedup_eq_self (l : List String) (h : l.Nodup) : firstDedup l = l :=
  firstDedupAux_eq_self l [] h (by simp)

theorem lastByName_eq_none_iff (files : List TEntry) (n : String) :
    lastByName files n = none ↔ n ∉ files.map (fun e => e.name) := by
  rw [lastByName, List.getLast?_eq_none_iff, List.filter_eq_nil_iff]
  constructor
  · intro h hmem
    obtain ⟨e, he, hname⟩ := List.mem_map.mp hmem
    exact h e he (by simp [hname])
  · intro h e he hname
    exact h (List.mem_map.mpr ⟨e, he, by simpa using hname⟩)

theorem lastByName_isSome_iff (files : List TEntry) (n : String) :
    (lastByName files n).isSome = true ↔ n ∈ files.map (fun e => e.name) := by
  constructor
  · intro h
    by_contra hmem
    rw [(lastByName_eq_none_iff files n).mpr hmem] at h
    simp at h
  · intro hmem
    cases hl : lastByName files n with
    | none => exact absurd hmem ((lastByName_eq_none_iff files n).mp hl)
    | some e => rfl

theorem lastByName_some (files : List TEntry) (n : String) (e : TEntry)
    (h : lastByName files n = some e) : e ∈ files ∧ e.name = n := by
  have hmem := mem_of_getLast?_eq_some h
  have := List.mem_filter.mp hmem
  exact ⟨this.1, by simpa using this.2⟩

theorem lastByName_self (files : List TEntry)
    (hnd : (files.map (fun e => e.name)).Nodup) (e : TEntry) (he : e ∈ files) :
    lastByName files e.name = some e := by
  induction files with
  | nil => cases he
  | cons f rest ih =>
    rw [List.map_cons, List.nodup_cons] at hnd
    rcases List.mem_cons.mp he with rfl | hmem
    · have hrest : rest.filter (fun x => x.name == e.name) = [] := by
        rw [List.filter_eq_nil_iff]
        intro x hx hnm
        exact hnd.1 (List.mem_map.mpr ⟨x, hx, by simpa using hnm.symm⟩)
      rw [lastByName, List.filter_cons, if_pos (by simp), hrest]
      rfl
    · have hne : ¬ (f.name == e.name) = true := by
        intro heq
        exact hnd.1 (by
          rw [show f.name = e.name by simpa using heq]
          exact List.mem_map.mpr ⟨e, hmem, rfl⟩)
      rw [lastByName, List.filter_cons, if_neg hne]
      exact ih hnd.2 hmem

theorem mem_changeKeys (base : GTree) (comp : Option GTree) (n : String) :
    n ∈ changeKeys base comp ↔
      n ∈ base.files.map (fun e => e.name) ∨
        n ∈ (compFiles comp).map (fun e => e.name) := by
  rw [changeKeys]
  simp only [List.mem_append, List.mem_filter, mem_firstDedup]
  constructor
  · rintro (h | ⟨h, _⟩)
    · exact Or.inl h
    · exact Or.inr h
  · rintro (h | h)
    · exact Or.inl h
    · by_cases hb : n ∈ base.files.map (fun e => e.name)
      · exact Or.inl hb
      · refine Or.inr ⟨h, ?_⟩
        have hnk : n ∉ firstDedup (base.files.map (fun e => e.name)) :=
          fun hm => hb ((mem_firstDedup n _).mp hm)
        simpa using hnk

theorem nodup_changeKeys (base : GTree) (comp : Option GTree) :
    (changeKeys base comp).Nodup := by
  rw [changeKeys]
  refine List.nodup_append.mpr ⟨nodup_firstDedup _, (nodup_firstDedup _).filter _, ?_⟩
  intro n hn hn2
  have hthis := (List.mem_filter.mp hn2).2
  rw [Bool.not_eq_eq_eq_not, Bool.not_true, ← Bool.not_eq_true] at hthis
  exact absurd (List.elem_iff.mpr hn) hthis

theorem changeKeep_iff (c : Change) :
    changeKeep c = true ↔
      (c.base = none ∨ c.comp = none ∨
        c.base.map (fun e => e.cid) ≠ c.comp.map (fun e => e.cid)) := by
  cases hb : c.base <;> cases hc : c.comp <;>
    simp [changeKeep, hb, hc]

/-- An entry named n occurs in the changeset iff n occurs on at least one
side and the two sides differ for n; moreover that entry is exactly the
fileset record for n. -/
theorem mem_getChanges_iff (base : GTree) (comp : Option GTree) (n : String) :
    (∃ e, e ∈ getChanges base comp ∧ e.name = n) ↔
      ((n ∈ base.files.map (fun e => e.name) ∨
          n ∈ (compFiles comp).map (fun e => e.name)) ∧
        (lastByName base.files n = none ∨ lastByName (compFiles comp) n = none ∨
          (lastByName base.files n).map (fun e => e.cid) ≠
            (lastByName (compFiles comp) n).map (fun e => e.cid))) := by
  rw [getChanges]
  constructor
  · rintro ⟨e, hmem, rfl⟩
    obtain ⟨hmap, hkeep⟩ := List.mem_filter.mp hmem
    obtain ⟨m, hm, rfl⟩ := List.mem_map.mp hmap
    refine ⟨(mem_changeKeys base comp (entryFor base comp m).name).mp ?_, ?_⟩
    · simpa [entryFor] using hm
    · simpa [entryFor] using (changeKeep_iff _).mp hkeep
  · rintro ⟨hmem, hdiff⟩
    refine ⟨entryFor base comp n, List.mem_filter.mpr ⟨?_, ?_⟩, rfl⟩
    · exact List.mem_map.mpr ⟨n, (mem_changeKeys base comp n).mpr hmem, rfl⟩
    · exact (changeKeep_iff _).mpr (by simpa [entryFor] using hdiff)

/-- Two sides with the same entry list produce an empty changeset. -/
theorem getChanges_self (base : GTree) (comp : GTree) (h : base.files = comp.files) :
    getChanges base (some comp) = [] := by
  rw [getChanges, List.filter_eq_nil_iff]
  intro c hc
  obtain ⟨m, hm, rfl⟩ := List.mem_map.mp hc
  have hmem := (mem_changeKeys base (some comp) m).mp hm
  have hsame : compFiles (some comp) = base.files := by simp [compFiles, h]
  rw [hsame] at hmem
  have hm2 : m ∈ base.files.map (fun e => e.name) := by
    rcases hmem with h1 | h1 <;> exact h1
  obtain ⟨e, hl⟩ := Option.isSome_iff_exists.mp ((lastByName_isSome_iff _ _).mpr hm2)
  intro hkeep
  rcases (changeKeep_iff _).mp hkeep with h1 | h1 | h1 <;>
    simp [entryFor, hsame, hl] at h1

/-- With an absent comparison tree and duplicate-free base names, the
changeset is exactly the base entries, each as an addition whose
comparison side is absent. -/
theorem getChanges_absent (base : GTree)
    (hnd : (base.files.map (fun e => e.name)).Nodup) :
    getChanges base none =
      base.files.map (fun e => { name := e.name, base := some e, comp := none }) := by
  rw [getChanges]
  have hkeys : changeKeys base none = base.files.map (fun e => e.name) := by
    rw [changeKeys]
    simp only [compFiles, List.map_nil]
    rw [show firstDedup [] = [] from rfl, firstDedup_eq_self _ hnd]
    simp
  rw [hkeys, List.map_map]
  have hmap : base.files.map (entryFor base none ∘ fun e => e.name) =
      base.files.map (fun e => { name := e.name, base := some e, comp := none }) := by
    apply List.map_congr_left
    intro e he
    simp only [Function.comp_apply, entryFor, compFiles]
    rw [lastByName_self base.files hnd e he]
    rfl
  rw [hmap, List.filter_eq_self]
  intro c hc
  obtain ⟨e, _, rfl⟩ := List.mem_map.mp hc
  rfl

/- ---------------------------------------------------------------------
   Run-level properties of the diff engine.
   --------------------------------------------------------------------- -/

theorem updatePayloadsD_append (l1 l2 : List DEvent) :
    updatePayloadsD (l1 ++ l2) = updatePayloadsD l1 ++ updatePayloadsD l2 :=
  List.filterMap_append l1 l2 _

/-- A run over two trees with the same entry list inserts nothing and
invokes no callback at all. -/
theorem fetchTrees_identical (repo : TRepo) (cs : Contents) (fuel t1 t2 : Nat)
    (path : Option String) (T T2 : GTree)
    (h1 : getTree repo t1 = some T) (h2 : getTree repo t2 = some T2)
    (hfiles : T.files = T2.files) :
    (fetchTrees repo cs fuel t1 (some t2) path initDState).stateChanges = [] ∧
    (fetchTrees repo cs fuel t1 (some t2) path initDState).events = [] := by
  cases fuel with
  | zero => exact ⟨rfl, rfl⟩
  | succ fuel =>
    rw [fetchTrees, if_neg (by simp [initDState])]
    simp only [h1, h2, Option.map_some', getChanges_self T T2 hfiles, List.foldl_nil]
    exact ⟨rfl, rfl⟩

/-- One leaf task preserves sortedness of the result list and of every
onUpdate payload, because it re-sorts the whole list before publishing. -/
theorem leafStep_sorted (cs : Contents) (path : Option String) (s : DState) (c : Change)
    (h1 : List.Sorted nameLe s.stateChanges)
    (h2 : ∀ u ∈ updatePayloadsD s.events, List.Sorted nameLe u) :
    List.Sorted nameLe (leafStep cs path s c).stateChanges ∧
    (∀ u ∈ updatePayloadsD (leafStep cs path s c).events, List.Sorted nameLe u) := by
  rw [leafStep]
  cases hc : contentsPair cs c with
  | none =>
    simp only [hc]
    refine ⟨h1, ?_⟩
    simpa [updatePayloadsD_append, updatePayloadsD] using h2
  | some pr =>
    simp only [hc]
    split
    · exact ⟨List.sorted_insertionSort nameLe _, h2⟩
    · refine ⟨List.sorted_insertionSort nameLe _, ?_⟩
      intro u hu
      simp only [updatePayloadsD_append, List.mem_append] at hu
      rcases hu with hu | hu
      · exact h2 u hu
      · have hueq : u = sortByName (s.stateChanges ++
            [{ path := path, name := c.name, change := pr }]) := by
          simpa [updatePayloadsD] using hu
        rw [hueq]
        exact List.sorted_insertionSort nameLe _

/-- Folding any list of tasks each of which preserves the sortedness
invariant preserves it, whatever the order of the tasks. -/
theorem foldl_sorted_preserve {β : Type} (step : DState → β → DState)
    (hstep : ∀ acc c, List.Sorted nameLe acc.stateChanges →
      (∀ u ∈ updatePayloadsD acc.events, List.Sorted nameLe u) →
      List.Sorted nameLe (step acc c).stateChanges ∧
      (∀ u ∈ updatePayloadsD (step acc c).events, List.Sorted nameLe u)) :
    ∀ (l : List β) (acc : DState), List.Sorted nameLe acc.stateChanges →
      (∀ u ∈ updatePayloadsD acc.events, List.Sorted nameLe u) →
      List.Sorted nameLe (l.foldl step acc).stateChanges ∧
      (∀ u ∈ updatePayloadsD (l.foldl step acc).events, List.Sorted nameLe u) := by
  intro l
  induction l with
  | nil => intro acc ha1 ha2; exact ⟨ha1, ha2⟩
  | cons c rest ih =>
    intro acc ha1 ha2
    rw [List.foldl_cons]
    obtain ⟨hb1, hb2⟩ := hstep acc c ha1 ha2
    exact ih (step acc c) hb1 hb2

/-- Every intermediate and final result list of fetchTrees is sorted by
name, and so is every onUpdate payload, from any state already having the
invariant. -/
theorem fetchTrees_sorted (repo : TRepo) (cs : Contents) :
    ∀ (fuel t1 : Nat) (t2 : Option Nat) (path : Option String) (s : DState),
      List.Sorted nameLe s.stateChanges →
      (∀ u ∈ updatePayloadsD s.events, List.Sorted nameLe u) →
      List.Sorted nameLe (fetchTrees repo cs fuel t1 t2 path s).stateChanges ∧
      (∀ u ∈ updatePayloadsD (fetchTrees repo cs fuel t1 t2 path s).events,
        List.Sorted nameLe u) := by
  intro fuel
  induction fuel with
  | zero => intro t1 t2 path s ha1 ha2; exact ⟨ha1, ha2⟩
  | succ fuel ih =>
    intro t1 t2 path s ha1 ha2
    rw [fetchTrees.eq_def]
    by_cases hr : s.running = false
    · simp only [hr, if_true]; exact ⟨ha1, ha2⟩
    · simp only [hr, if_false]
      have hfail : ∀ s2 : DState, List.Sorted nameLe s2.stateChanges →
          (∀ u ∈ updatePayloadsD s2.events, List.Sorted nameLe u) →
          List.Sorted nameLe
            ({ s2 with events := s2.events ++ [DEvent.fail] } : DState).stateChanges ∧
          (∀ u ∈ updatePayloadsD
              ({ s2 with events := s2.events ++ [DEvent.fail] } : DState).events,
            List.Sorted nameLe u) := by
        intro s2 hb1 hb2
        refine ⟨hb1, ?_⟩
        simpa [updatePayloadsD_append, updatePayloadsD] using hb2
      have hfold : ∀ (base : GTree) (compT : Option GTree) (s2 : DState),
          List.Sorted nameLe s2.stateChanges →
          (∀ u ∈ updatePayloadsD s2.events, List.Sorted nameLe u) →
          List.Sorted nameLe ((getChanges base compT).foldl
            (fun acc c =>
              if acc.running = false then acc
              else
                match c.base, c.comp with
                | some e1, some e2 =>
                  if e1.isDir && e2.isDir then
                    fetchTrees repo cs fuel e1.cid (some e2.cid)
                      (some (extendPath path c.name)) acc
                  else leafStep cs path acc c
                | _, _ => leafStep cs path acc c) s2).stateChanges ∧
          (∀ u ∈ updatePayloadsD ((getChanges base compT).foldl
            (fun acc c =>
              if acc.running = false then acc
              else
                match c.base, c.comp with
                | some e1, some e2 =>
                  if e1.isDir && e2.isDir then
                    fetchTrees repo cs fuel e1.cid (some e2.cid)
                      (some (extendPath path c.name)) acc
                  else leafStep cs path acc c
                | _, _ => leafStep cs path acc c) s2).events,
            List.Sorted nameLe u) := by
        intro base compT s2 hb1 hb2
        refine foldl_sorted_preserve _ ?_ (getChanges base compT) s2 hb1 hb2
        intro acc c hc1 hc2
        by_cases hcr : acc.running = false
        · rw [if_pos hcr]; exact ⟨hc1, hc2⟩
        · rw [if_neg hcr]
          cases hcb : c.base with
          | none => exact leafStep_sorted cs path acc c hc1 hc2
          | some e1 =>
            cases hcc : c.comp with
            | none => exact leafStep_sorted cs path acc c hc1 hc2
            | some e2 =>
              by_cases hd : e1.isDir && e2.isDir
              · simp only [hd, if_true]
                exact ih e1.cid (some e2.cid) (some (extendPath path c.name)) acc hc1 hc2
              · simp only [hd, if_false]
                exact leafStep_sorted cs path acc c hc1 hc2
      cases hbase : getTree repo t1 with
      | none =>
        cases t2 with
        | none => exact hfail _ ha1 ha2
        | some a2 =>
          cases hcomp : getTree repo a2 with
          | none => exact hfail _ ha1 ha2
          | some T2 => simp only [hcomp, Option.map_some']; exact hfail _ ha1 ha2
      | some base =>
        cases t2 with
        | none => exact hfold base none _ ha1 ha2
        | some a2 =>
          cases hcomp : getTree repo a2 with
          | none => simp only [hcomp, Option.map_none']; exact hfail _ ha1 ha2
          | some T2 =>
            simp only [hcomp, Option.map_some']
            exact hfold base (some T2) _ ha1 ha2

/-- C5: the changeset of getChanges holds an entry for a name iff the name
occurs on at least one side and either a side lacks it or the two sides
carry different content addresses; identical entries are excluded, so a
run over two trees with the same entry list inserts nothing and never
invokes onUpdate; and with an absent comparison tree every base entry
(names being unique per the data model) appears with the comparison side
absent. -/
theorem claim_C5 :
    (∀ (base compT : GTree) (n : String),
        (∃ e, e ∈ getChanges base (some compT) ∧ e.name = n) ↔
          ((n ∈ base.files.map (fun e => e.name) ∨
              n ∈ compT.files.map (fun e => e.name)) ∧
            (lastByName base.files n = none ∨ lastByName compT.files n = none ∨
              (lastByName base.files n).map (fun e => e.cid) ≠
                (lastByName compT.files n).map (fun e => e.cid)))) ∧
    (∀ (repo : TRepo) (cs : Contents) (fuel t1 t2 : Nat) (path : Option String)
        (T T2 : GTree), getTree repo t1 = some T → getTree repo t2 = some T2 →
        T.files = T2.files →
        (fetchTrees repo cs fuel t1 (some t2) path initDState).stateChanges = [] ∧
        updatePayloadsD (fetchTrees repo cs fuel t1 (some t2) path initDState).events =
          []) ∧
    (∀ base : GTree, (base.files.map (fun e => e.name)).Nodup →
        getChanges base none =
          base.files.map (fun e => { name := e.name, base := some e, comp := none })) := by
  refine ⟨?_, ?_, getChanges_absent⟩
  · intro base compT n
    exact mem_getChanges_iff base (some compT) n
  · intro repo cs fuel t1 t2 path T T2 h1 h2 hfiles
    obtain ⟨hsc, hev⟩ := fetchTrees_identical repo cs fuel t1 t2 path T T2 h1 h2 hfiles
    exact ⟨hsc, by rw [hev]; rfl⟩

/-- Witness for C5 at concrete inputs: two stored trees with the same
single entry, and the base tree alone. -/
theorem claim_C5_witness :
    (getTree identTreeRepo 20 =
        some { files := [ { name := ("x"), cid := 7, isDir := false } ] } ∧
      getTree identTreeRepo 21 =
        some { files := [ { name := ("x"), cid := 7, isDir := false } ] } ∧
      (fetchTrees identTreeRepo [] 5 20 (some 21) none initDState).stateChanges = [] ∧
      updatePayloadsD
        (fetchTrees identTreeRepo [] 5 20 (some 21) none initDState).events = []) ∧
    ((([ { name := ("x"), cid := 7, isDir := false } ] : List TEntry).map
        (fun e => e.name)).Nodup ∧
      getChanges { files := [ { name := ("x"), cid := 7, isDir := false } ] } none =
        [ { name := ("x"),
            base := some { name := ("x"), cid := 7, isDir := false },
            comp := none } ]) :=
  ⟨⟨by decide, by decide,
      claim_C5.2.1 identTreeRepo [] 5 20 21 none
        { files := [ { name := ("x"), cid := 7, isDir := false } ] }
        { files := [ { name := ("x"), cid := 7, isDir := false } ] }
        (by decide) (by decide) rfl⟩,
    ⟨by decide,
      claim_C5.2.2 { files := [ { name := ("x"), cid := 7, isDir := false } ] }
        (by decide)⟩⟩

/-- C6: the result list the diff engine shares across its concurrent
tasks is re-sorted by name (case-sensitive, path excluded) at every
insertion, so whatever list the tasks have accumulated so far and in
whatever order they settle, the re-sorted list is sorted; consequently in
a run every list passed to onUpdate and the final result list are sorted
by name. -/
theorem claim_C6 :
    (∀ l : List DRecord, List.Sorted nameLe (sortByName l)) ∧
    (∀ (repo : TRepo) (cs : Contents) (fuel t1 : Nat) (t2 : Option Nat)
        (path : Option String),
        List.Sorted nameLe (fetchTrees repo cs fuel t1 t2 path initDState).stateChanges ∧
        ∀ u ∈ updatePayloadsD (fetchTrees repo cs fuel t1 t2 path initDState).events,
          List.Sorted nameLe u) :=
  ⟨fun l => List.sorted_insertionSort nameLe l,
    fun repo cs fuel t1 t2 path =>
      fetchTrees_sorted repo cs fuel t1 t2 path initDState (by simp [initDState])
        (by intro u hu; simp [initDState, updatePayloadsD] at hu)⟩

/-- Witness for C6 on a concrete run with one rejected and one resolved
change: the final list and the one published payload are sorted. -/
theorem claim_C6_witness :
    List.Sorted nameLe
      (fetchTrees failTreeRepo failContents 3 10 none none initDState).stateChanges ∧
    List.Sorted nameLe [{ path := none, name := ("b"), change := (some ("bee"), none) }] :=
  ⟨(claim_C6.2 failTreeRepo failContents 3 10 none none).1,
    (claim_C6.2 failTreeRepo failContents 3 10 none none).2
      [{ path := none, name := ("b"), change := (some ("bee"), none) }] (by decide)⟩

/- ---------------------------------------------------------------------
   Store and queue lemmas for the walker invariant.
   --------------------------------------------------------------------- -/

theorem getObject_mem {repo : WRepo} {a : Nat} {c : Commit}
    (h : getObject repo a = some c) : (a, c) ∈ repo := by
  rw [getObject] at h
  cases hf : List.find? (fun e => e.1 == a) repo with
  | none => rw [hf] at h; cases h
  | some e =>
    rw [hf] at h
    have he1 : e.1 = a := by simpa using List.find?_some hf
    have he2 : e.2 = c := by simpa using h
    have := List.mem_of_find?_eq_some hf
    rwa [show e = (a, c) from Prod.ext he1 he2] at this

theorem getObject_cid {repo : WRepo} {a : Nat} {c : Commit} (hwf : WfRepo repo)
    (h : getObject repo a = some c) : c.cid = a :=
  hwf (a, c) (getObject_mem h)

theorem getObject_self {repo : WRepo} {a : Nat} {c : Commit} (hwf : WfRepo repo)
    (h : getObject repo a = some c) : getObject repo c.cid = some c := by
  rwa [getObject_cid hwf h]

theorem getObject_parents_nodup {repo : WRepo} {a : Nat} {c : Commit}
    (hnp : NodupParents repo) (h : getObject repo a = some c) : c.parents.Nodup :=
  hnp (a, c) (getObject_mem h)

theorem getObject_mem_addrs {repo : WRepo} {a : Nat} {c : Commit}
    (h : getObject repo a = some c) : a ∈ repo.map (fun e => e.1) :=
  List.mem_map.mpr ⟨(a, c), getObject_mem h, rfl⟩

theorem resolveAll_none {repo : WRepo} : ∀ {l : List Nat},
    resolveAll repo l = none → ∃ a ∈ l, getObject repo a = none := by
  intro l
  induction l with
  | nil => intro h; cases h
  | cons a as ih =>
    intro h
    rw [resolveAll] at h
    cases ha : getObject repo a with
    | none => exact ⟨a, List.mem_cons_self a as, ha⟩
    | some c =>
      cases has : resolveAll repo as with
      | none =>
        obtain ⟨b, hb, hb2⟩ := ih has
        exact ⟨b, List.mem_cons_of_mem a hb, hb2⟩
      | some cs => rw [ha, has] at h; cases h

theorem resolveAll_forall₂ {repo : WRepo} : ∀ {l : List Nat} {cs : List Commit},
    resolveAll repo l = some cs →
      List.Forall₂ (fun a d => getObject repo a = some d) l cs := by
  intro l
  induction l with
  | nil =>
    intro cs h
    rw [resolveAll] at h
    cases h
    exact List.Forall₂.nil
  | cons a as ih =>
    intro cs h
    rw [resolveAll] at h
    cases ha : getObject repo a with
    | none => rw [ha] at h; cases h
    | some c =>
      cases has : resolveAll repo as with
      | none => rw [ha, has] at h; cases h
      | some cs2 =>
        rw [ha, has] at h
        cases h
        exact List.Forall₂.cons ha (ih has)

theorem forall₂_cids {repo : WRepo} (hwf : WfRepo repo) :
    ∀ {l : List Nat} {cs : List Commit},
      List.Forall₂ (fun a d => getObject repo a = some d) l cs → cids cs = l := by
  intro l cs h
  induction h with
  | nil => rfl
  | cons ha _ ih =>
    simp only [cids, List.map_cons]
    rw [getObject_cid hwf ha]
    simp only [cids] at ih
    rw [ih]

theorem forall₂_stored {repo : WRepo} (hwf : WfRepo repo) {l : List Nat}
    {cs : List Commit} (h : List.Forall₂ (fun a d => getObject repo a = some d) l cs) :
    ∀ d ∈ cs, getObject repo d.cid = some d := by
  induction h with
  | nil => intro d hd; cases hd
  | cons ha _ ih =>
    intro d hd
    rcases List.mem_cons.mp hd with rfl | hd
    · exact getObject_self hwf ha
    · exact ih d hd

theorem resolveAll_some_of_forall {repo : WRepo} : ∀ {l : List Nat},
    (∀ a ∈ l, (getObject repo a).isSome = true) →
      ∃ cs, resolveAll repo l = some cs := by
  intro l
  induction l with
  | nil => intro _; exact ⟨[], rfl⟩
  | cons a as ih =>
    intro h
    obtain ⟨c, hc⟩ := Option.isSome_iff_exists.mp (h a (List.mem_cons_self a as))
    obtain ⟨cs, hcs⟩ := ih (fun b hb => h b (List.mem_cons_of_mem a hb))
    exact ⟨c :: cs, by rw [resolveAll, hc, hcs]⟩

theorem lastUpdate_append_update (l : List WEvent) (u : List Commit) :
    lastUpdate (l ++ [WEvent.update u]) = some u := by
  rw [lastUpdate, updatePayloads, List.filterMap_append]
  simp [updPayload]

theorem lastUpdate_append_complete (l : List WEvent) (b : Bool) :
    lastUpdate (l ++ [WEvent.complete b]) = lastUpdate l := by
  rw [lastUpdate, updatePayloads, List.filterMap_append]
  simp [updPayload, lastUpdate, updatePayloads]

theorem cids_sortQueue_perm (l : List Commit) :
    List.Perm (cids (List.insertionSort tsGe l)) (cids l) := by
  show List.Perm ((List.insertionSort tsGe l).map (fun c => c.cid))
    (l.map (fun c => c.cid))
  exact (List.perm_insertionSort tsGe l).map (fun c => c.cid)

theorem mem_sortQueue (l : List Commit) (d : Commit) :
    d ∈ List.insertionSort tsGe l ↔ d ∈ l :=
  (List.perm_insertionSort tsGe l).mem_iff

theorem sorted_sortQueue (l : List Commit) :
    List.Sorted tsGe (List.insertionSort tsGe l) :=
  List.sorted_insertionSort tsGe l

theorem countP_strict {l : List Nat} {p1 p2 : Nat → Bool}
    (himp : ∀ a ∈ l, p2 a = true → p1 a = true) {a0 : Nat} (h0 : a0 ∈ l)
    (h1 : p1 a0 = true) (h2 : p2 a0 = false) : l.countP p2 < l.countP p1 := by
  induction l with
  | nil => cases h0
  | cons b bs ih =>
    rw [List.countP_cons, List.countP_cons]
    rcases List.mem_cons.mp h0 with rfl | h0in
    · rw [h1, h2]
      have hmono : bs.countP p2 ≤ bs.countP p1 := by
        apply List.countP_mono_left
        intro a ha
        exact himp a (List.mem_cons_of_mem a0 ha)
      simp only [if_true]
      have hz : (if false = true then 1 else 0) = 0 := by norm_num
      rw [hz]
      omega
    · have hb : (if p2 b = true then 1 else 0) ≤ (if p1 b = true then 1 else 0) := by
        by_cases hpb : p2 b = true
        · rw [if_pos hpb, if_pos (himp b (List.mem_cons_self b bs) hpb)]
        · rw [if_neg hpb]; omega
      have := ih (fun a ha h => himp a (List.mem_cons_of_mem b ha) h) h0in
      omega

theorem parents_le_parentBound {repo : WRepo} {a : Nat} {c : Commit}
    (h : (a, c) ∈ repo) : c.parents.length ≤ parentBound repo := by
  rw [parentBound]
  exact List.le_sum_of_mem (List.mem_map.mpr ⟨(a, c), h, rfl⟩)

theorem emitStep_count (cr : Int) (c : Commit) (s : WState) :
    (emitStep cr c s).count = s.count + 1 := rfl

theorem emitStep_commits (cr : Int) (c : Commit) (s : WState) :
    (emitStep cr c s).commits = s.commits ++ [c] := rfl

theorem emitStep_fetched (cr : Int) (c : Commit) (s : WState) :
    (emitStep cr c s).fetched = s.fetched := rfl

theorem emitStep_queue (cr : Int) (c : Commit) (s : WState) :
    (emitStep cr c s).queue = s.queue := rfl

theorem emitStep_running (cr : Int) (c : Commit) (s : WState) :
    (emitStep cr c s).running = s.running := rfl

theorem emitStep_resolveLog (cr : Int) (c : Commit) (s : WState) :
    (emitStep cr c s).resolveLog = s.resolveLog := rfl

theorem emitStep_queueLog (cr : Int) (c : Commit) (s : WState) :
    (emitStep cr c s).queueLog = s.queueLog := rfl

theorem scheduleParents_fst (c : Commit) (s : WState) :
    (scheduleParents c s).1 = c.parents.filter (fun p => !(s.fetched.contains p)) := rfl

theorem scheduleParents_fetched (c : Commit) (s : WState) :
    (scheduleParents c s).2.fetched = s.fetched ++ (scheduleParents c s).1 := rfl

theorem scheduleParents_resolveLog (c : Commit) (s : WState) :
    (scheduleParents c s).2.resolveLog =
      s.resolveLog ++ (scheduleParents c s).1.map
        (fun a => (a, ((s.fetched ++ (scheduleParents c s).1).contains a))) := rfl

theorem scheduleParents_commits (c : Commit) (s : WState) :
    (scheduleParents c s).2.commits = s.commits := rfl

theorem scheduleParents_queue (c : Commit) (s : WState) :
    (scheduleParents c s).2.queue = s.queue := rfl

theorem scheduleParents_count (c : Commit) (s : WState) :
    (scheduleParents c s).2.count = s.count := rfl

theorem scheduleParents_events (c : Commit) (s : WState) :
    (scheduleParents c s).2.events = s.events := rfl

theorem scheduleParents_running (c : Commit) (s : WState) :
    (scheduleParents c s).2.running = s.running := rfl

theorem scheduleParents_queueLog (c : Commit) (s : WState) :
    (scheduleParents c s).2.queueLog = s.queueLog := rfl

theorem enqueueStep_queue (ps : List Commit) (s : WState) :
    (enqueueStep ps s).queue = List.insertionSort tsGe (s.queue ++ ps) := rfl

theorem enqueueStep_queueLog (ps : List Commit) (s : WState) :
    (enqueueStep ps s).queueLog =
      s.queueLog ++ [(cids (List.insertionSort tsGe (s.queue ++ ps)), s.fetched)] := rfl

theorem enqueueStep_fetched (ps : List Commit) (s : WState) :
    (enqueueStep ps s).fetched = s.fetched := rfl

theorem enqueueStep_commits (ps : List Commit) (s : WState) :
    (enqueueStep ps s).commits = s.commits := rfl

theorem enqueueStep_count (ps : List Commit) (s : WState) :
    (enqueueStep ps s).count = s.count := rfl

theorem enqueueStep_events (ps : List Commit) (s : WState) :
    (enqueueStep ps s).events = s.events := rfl

theorem enqueueStep_resolveLog (ps : List Commit) (s : WState) :
    (enqueueStep ps s).resolveLog = s.resolveLog := rfl

theorem enqueueStep_running (ps : List Commit) (s : WState) :
    (enqueueStep ps s).running = s.running := rfl

theorem completeW_running (s : WState) : (completeW s).running = false := rfl

theorem completeW_events (s : WState) :
    (completeW s).events = s.events ++ [WEvent.complete false] := rfl

theorem completeW_commits (s : WState) : (completeW s).commits = s.commits := rfl

theorem completeW_count (s : WState) : (completeW s).count = s.count := rfl

theorem completeW_fetched (s : WState) : (completeW s).fetched = s.fetched := rfl

theorem completeW_queue (s : WState) : (completeW s).queue = s.queue := rfl

theorem completeW_resolveLog (s : WState) : (completeW s).resolveLog = s.resolveLog := rfl

theorem completeW_queueLog (s : WState) : (completeW s).queueLog = s.queueLog := rfl

theorem cids_append (l1 l2 : List Commit) : cids (l1 ++ l2) = cids l1 ++ cids l2 :=
  List.map_append _ l1 l2

theorem mem_cids (a : Nat) (l : List Commit) :
    a ∈ cids l ↔ ∃ c ∈ l, c.cid = a := by
  simp [cids]

/- ---------------------------------------------------------------------
   One processing round: facts about the scheduled parents.
   --------------------------------------------------------------------- -/

theorem pcs_subset (c : Commit) (s : WState) :
    (scheduleParents c s).1 ⊆ c.parents := by
  rw [scheduleParents_fst]
  intro p hp
  exact (List.mem_filter.mp hp).1

theorem pcs_unfetched (c : Commit) (s : WState) :
    ∀ p ∈ (scheduleParents c s).1, p ∉ s.fetched := by
  intro p hp hmem
  rw [scheduleParents_fst] at hp
  have := (List.mem_filter.mp hp).2
  rw [Bool.not_eq_eq_eq_not, Bool.not_true, ← Bool.not_eq_true] at this
  exact this (List.elem_iff.mpr hmem)

theorem pcs_nodup {repo : WRepo} {c : Commit} (s : WState)
    (hnp : NodupParents repo) (hcur : getObject repo c.cid = some c) :
    ((scheduleParents c s).1).Nodup := by
  rw [scheduleParents_fst]
  exact (getObject_parents_nodup hnp hcur).filter _

theorem pcs_dichotomy (c : Commit) (s : WState) :
    ∀ p ∈ c.parents, p ∈ (scheduleParents c s).1 ∨ p ∈ s.fetched := by
  intro p hp
  by_cases hf : p ∈ s.fetched
  · exact Or.inr hf
  · refine Or.inl ?_
    rw [scheduleParents_fst]
    refine List.mem_filter.mpr ⟨hp, ?_⟩
    rw [Bool.not_eq_eq_eq_not, Bool.not_true, ← Bool.not_eq_true]
    intro hc
    exact hf (List.elem_iff.mp hc)

/-- The resolve log of the state after scheduling keeps all log
invariants: flags true, addresses inside the (new) fetched set, and no
address logged twice when parent lists are duplicate-free. -/
theorem schedule_logfacts (repo : WRepo) (root : Nat) (cr : Int) (c : Commit)
    (s : WState) (hinv : EInv repo root cr c s) :
    (∀ e ∈ (scheduleParents c (emitStep cr c s)).2.resolveLog, e.2 = true) ∧
    (∀ e ∈ (scheduleParents c (emitStep cr c s)).2.resolveLog,
      e.1 ∈ (scheduleParents c (emitStep cr c s)).2.fetched) ∧
    (NodupParents repo →
      ((scheduleParents c (emitStep cr c s)).2.resolveLog.map (fun e => e.1)).Nodup) := by
  have hfe : (emitStep cr c s).fetched = s.fetched := emitStep_fetched cr c s
  refine ⟨?_, ?_, ?_⟩
  · intro e he
    rw [scheduleParents_resolveLog, emitStep_resolveLog] at he
    rcases List.mem_append.mp he with he | he
    · exact hinv.hrlogf e he
    · obtain ⟨a, ha, rfl⟩ := List.mem_map.mp he
      refine List.elem_iff.mpr ?_
      rw [hfe]
      exact List.mem_append_right s.fetched ha
  · intro e he
    rw [scheduleParents_fetched, hfe]
    rw [scheduleParents_resolveLog, emitStep_resolveLog] at he
    rcases List.mem_append.mp he with he | he
    · exact List.mem_append_left _ (hinv.hrlogm e he)
    · obtain ⟨a, ha, rfl⟩ := List.mem_map.mp he
      exact List.mem_append_right s.fetched ha
  · intro hnp
    rw [scheduleParents_resolveLog, emitStep_resolveLog, List.map_append, List.map_map]
    have hmm : ((scheduleParents c (emitStep cr c s)).1.map
        ((fun e => e.1) ∘ fun a => (a, ((emitStep cr c s).fetched ++
          (scheduleParents c (emitStep cr c s)).1).contains a))) =
        (scheduleParents c (emitStep cr c s)).1 := by
      rw [show ((fun (e : Nat × Bool) => e.1) ∘ fun a => (a,
        (((emitStep cr c s).fetched ++ (scheduleParents c (emitStep cr c s)).1).contains a)))
          = fun a => a from rfl]
      exact List.map_id _
    rw [hmm]
    refine List.nodup_append.mpr
      ⟨hinv.hrlognd hnp, pcs_nodup _ hnp hinv.hcur, ?_⟩
    intro a ha ha2
    obtain ⟨e, he, rfl⟩ := List.mem_map.mp ha
    exact pcs_unfetched c (emitStep cr c s) e.1 ha2
      (by rw [hfe]; exact hinv.hrlogm e he)

/-- Moving the commit in hand from the queue position to the processed
list permutes the tracked address multiset. -/
theorem shuffle_perm (A Q : List Nat) (x : Nat) :
    (A ++ Q ++ [x]).Perm ((A ++ [x]) ++ Q) := by
  rw [List.append_assoc A Q [x], List.append_assoc A [x] Q]
  exact List.Perm.append_left A List.perm_append_comm

/-- The exit taken when the finite target count is reached: the completed
state satisfies the walker postcondition and the log facts. -/
theorem roundComplete_post (repo : WRepo) (root : Nat) (cr : Int) (c : Commit)
    (s : WState) (hinv : EInv repo root cr c s)
    (hcond : cr ≠ -1 ∧ cr ≤ ((emitStep cr c s).count : Int)) :
    WPost repo root cr (completeW (emitStep cr c s)) ∧
      LogOk repo (completeW (emitStep cr c s)) := by
  have hfreeS1 : completeFree (emitStep cr c s).events = true := by
    rw [events_emitStep, completeFree_update]; exact hinv.hfree
  have hnd : NodupParents repo →
      (cids (completeW (emitStep cr c s)).commits ++
        cids (completeW (emitStep cr c s)).queue).Nodup := by
    intro hnp
    rw [completeW_commits, emitStep_commits, completeW_queue, emitStep_queue,
      cids_append]
    have hperm := shuffle_perm (cids s.commits) (cids s.queue) c.cid
    exact hperm.nodup (hinv.hnodup hnp)
  refine ⟨?_, ?_⟩
  · refine ⟨completeW_running _, ?_, ?_, ?_, ?_, ?_, ?_, ?_, ?_, hnd, ?_, ?_⟩
    · rw [completeW_count, emitStep_count, completeW_commits, emitStep_commits]
      simp [hinv.hcount]
    · rw [completeW_commits, emitStep_commits]
      simp
    · rw [completeW_fetched, emitStep_fetched]
      exact hinv.hroot
    · exact ⟨(emitStep cr c s).events, completeW_events _, hfreeS1⟩
    · rw [completeW_events, lastUpdate_append_complete, events_emitStep,
        lastUpdate_append_update, completeW_commits, emitStep_commits]
    · intro a
      rw [completeW_fetched, emitStep_fetched, completeW_commits, emitStep_commits,
        completeW_queue, emitStep_queue, cids_append]
      rw [hinv.hmem a]
      constructor
      · rintro (h | h | h)
        · exact Or.inl (List.mem_append_left _ h)
        · exact Or.inr h
        · exact Or.inl (List.mem_append_right _ (by simp [cids, h]))
      · rintro (h | h)
        · rcases List.mem_append.mp h with h | h
          · exact Or.inl h
          · exact Or.inr (Or.inr (by simpa [cids] using h))
        · exact Or.inr (Or.inl h)
    · intro a ha
      rw [completeW_fetched, emitStep_fetched] at ha
      exact hinv.hreach a ha
    · intro d hd
      rw [completeW_commits, emitStep_commits] at hd
      rcases List.mem_append.mp hd with hd | hd
      · exact hinv.hstored d hd
      · rw [show d = c by simpa using hd]
        exact hinv.hcur
    · intro hm
      rw [completeW_commits, emitStep_commits]
      exact (hinv.hsorted hm).1
    · refine Or.inl ⟨hcond.1, ?_, ?_⟩
      · rw [completeW_count]
        exact hcond.2
      · intro h1
        rw [completeW_count, emitStep_count]
        have h2 := hcond.2
        rw [emitStep_count] at h2
        rcases hinv.hcnt_lt with h3 | h3 | h3
        · exact absurd h3 hcond.1
        · push_cast at h2 h3 ⊢
          omega
        · omega
  · refine ⟨?_, ?_, ?_, ?_, ?_⟩
    · intro e he
      rw [completeW_resolveLog, emitStep_resolveLog] at he
      exact hinv.hrlogf e he
    · intro e he
      rw [completeW_resolveLog, emitStep_resolveLog] at he
      rw [completeW_fetched, emitStep_fetched]
      exact hinv.hrlogm e he
    · intro hnp
      rw [completeW_resolveLog, emitStep_resolveLog]
      exact hinv.hrlognd hnp
    · intro e he
      rw [completeW_queueLog, emitStep_queueLog] at he
      exact hinv.hqlog e he
    · intro hnp
      have := hnd hnp
      exact (List.nodup_append.mp this).1

theorem forall₂_mem_right {repo : WRepo} {l : List Nat} {cs : List Commit}
    (h : List.Forall₂ (fun a d => getObject repo a = some d) l cs) :
    ∀ d ∈ cs, ∃ a ∈ l, getObject repo a = some d := by
  induction h with
  | nil => intro d hd; cases hd
  | cons ha _ ih =>
    intro d hd
    rcases List.mem_cons.mp hd with rfl | hd
    · exact ⟨_, List.mem_cons_self _ _, ha⟩
    · obtain ⟨a, ha2, ha3⟩ := ih d hd
      exact ⟨a, List.mem_cons_of_mem _ ha2, ha3⟩

theorem roundFetch_mem (repo : WRepo) (root : Nat) (cr : Int) (c : Commit)
    (s : WState) (parents : List Commit) (hinv : EInv repo root cr c s) :
    ∀ a, a ∈ (enqueueStep parents (scheduleParents c (emitStep cr c s)).2).fetched ↔
      (a ∈ cids s.commits ∨ a ∈ cids s.queue ∨ a = c.cid ∨
        a ∈ (scheduleParents c (emitStep cr c s)).1) := by
  intro a
  rw [enqueueStep_fetched, scheduleParents_fetched, emitStep_fetched, List.mem_append,
    hinv.hmem a]
  constructor
  · rintro ((h | h | h) | h)
    · exact Or.inl h
    · exact Or.inr (Or.inl h)
    · exact Or.inr (Or.inr (Or.inl h))
    · exact Or.inr (Or.inr (Or.inr h))
  · rintro (h | h | h | h)
    · exact Or.inl (Or.inl h)
    · exact Or.inl (Or.inr (Or.inl h))
    · exact Or.inl (Or.inr (Or.inr h))
    · exact Or.inr h

theorem roundFetch_qperm (repo : WRepo) (cr : Int) (c : Commit) (s : WState)
    (parents : List Commit) (hwf : WfRepo repo)
    (hf2 : List.Forall₂ (fun a d => getObject repo a = some d)
      (scheduleParents c (emitStep cr c s)).1 parents) :
    List.Perm (cids (enqueueStep parents (scheduleParents c (emitStep cr c s)).2).queue)
      (cids s.queue ++ (scheduleParents c (emitStep cr c s)).1) := by
  rw [enqueueStep_queue, scheduleParents_queue, emitStep_queue]
  refine (cids_sortQueue_perm _).trans ?_
  rw [cids_append, forall₂_cids hwf hf2]

theorem roundFetch_closure (repo : WRepo) (root : Nat) (cr : Int) (c : Commit)
    (s : WState) (parents : List Commit) (hinv : EInv repo root cr c s) :
    ∀ d ∈ s.commits ++ [c], ∀ p ∈ d.parents,
      p ∈ (enqueueStep parents (scheduleParents c (emitStep cr c s)).2).fetched := by
  intro d hd p hp
  rw [enqueueStep_fetched, scheduleParents_fetched, emitStep_fetched, List.mem_append]
  rcases List.mem_append.mp hd with hd | hd
  · exact Or.inl (hinv.hclosure d hd p hp)
  · rw [show d = c by simpa using hd] at hp
    rcases pcs_dichotomy c (emitStep cr c s) p hp with h | h
    · exact Or.inr h
    · rw [emitStep_fetched] at h
      exact Or.inl h

theorem roundFetch_reach (repo : WRepo) (root : Nat) (cr : Int) (c : Commit)
    (s : WState) (parents : List Commit) (hinv : EInv repo root cr c s) :
    ∀ a ∈ (enqueueStep parents (scheduleParents c (emitStep cr c s)).2).fetched,
      Reach repo root a := by
  intro a ha
  rw [enqueueStep_fetched, scheduleParents_fetched, emitStep_fetched] at ha
  rcases List.mem_append.mp ha with ha | ha
  · exact hinv.hreach a ha
  · have hc : Reach repo root c.cid :=
      hinv.hreach c.cid ((hinv.hmem c.cid).mpr (Or.inr (Or.inr rfl)))
    exact Reach.step hc hinv.hcur (pcs_subset c (emitStep cr c s) ha)

theorem roundFetch_queue_stored (repo : WRepo) (root : Nat) (cr : Int) (c : Commit)
    (s : WState) (parents : List Commit) (hwf : WfRepo repo)
    (hinv : EInv repo root cr c s)
    (hf2 : List.Forall₂ (fun a d => getObject repo a = some d)
      (scheduleParents c (emitStep cr c s)).1 parents) :
    ∀ d ∈ (enqueueStep parents (scheduleParents c (emitStep cr c s)).2).queue,
      getObject repo d.cid = some d := by
  intro d hd
  rw [enqueueStep_queue, scheduleParents_queue, emitStep_queue, mem_sortQueue] at hd
  rcases List.mem_append.mp hd with hd | hd
  · exact hinv.hqueue d hd
  · exact forall₂_stored hwf hf2 d hd

theorem roundFetch_bignodup (repo : WRepo) (root : Nat) (cr : Int) (c : Commit)
    (s : WState) (hinv : EInv repo root cr c s) (hnp : NodupParents repo) :
    ((cids s.commits ++ [c.cid]) ++
      (cids s.queue ++ (scheduleParents c (emitStep cr c s)).1)).Nodup := by
  have hbig := hinv.hnodup hnp
  have h1 := List.nodup_append.mp hbig
  have h2 := List.nodup_append.mp h1.1
  have hpnd : ((scheduleParents c (emitStep cr c s)).1).Nodup :=
    pcs_nodup (emitStep cr c s) hnp hinv.hcur
  have hpunf : ∀ p ∈ (scheduleParents c (emitStep cr c s)).1, p ∉ s.fetched := by
    intro p hp
    have := pcs_unfetched c (emitStep cr c s) p hp
    rwa [emitStep_fetched] at this
  refine List.nodup_append.mpr ⟨?_, ?_, ?_⟩
  · refine List.nodup_append.mpr ⟨h2.1, by simp, ?_⟩
    intro a ha hax
    exact h1.2.2 (List.mem_append_left _ ha) hax
  · refine List.nodup_append.mpr ⟨h2.2.1, hpnd, ?_⟩
    intro a ha hap
    exact hpunf a hap ((hinv.hmem a).mpr (Or.inr (Or.inl ha)))
  · intro a ha hap
    rcases List.mem_append.mp hap with haq | hap2
    · rcases List.mem_append.mp ha with ha2 | ha2
      · exact h2.2.2 ha2 haq
      · exact h1.2.2 (List.mem_append_right _ haq) ha2
    · have hfet : a ∈ s.fetched := by
        rcases List.mem_append.mp ha with ha2 | ha2
        · exact (hinv.hmem a).mpr (Or.inl ha2)
        · exact (hinv.hmem a).mpr (Or.inr (Or.inr (by simpa using ha2)))
      exact hpunf a hap2 hfet

theorem roundFetch_queue_ts (repo : WRepo) (root : Nat) (cr : Int) (c : Commit)
    (s : WState) (parents : List Commit) (hinv : EInv repo root cr c s)
    (hf2 : List.Forall₂ (fun a d => getObject repo a = some d)
      (scheduleParents c (emitStep cr c s)).1 parents) (hm : MonoTs repo) :
    ∀ d ∈ (enqueueStep parents (scheduleParents c (emitStep cr c s)).2).queue,
      d.ts ≤ c.ts := by
  intro d hd
  rw [enqueueStep_queue, scheduleParents_queue, emitStep_queue, mem_sortQueue] at hd
  rcases List.mem_append.mp hd with hd | hd
  · exact (hinv.hsorted hm).2 d hd
  · obtain ⟨a, ha, ha2⟩ := forall₂_mem_right hf2 d hd
    have hap : a ∈ c.parents := pcs_subset c (emitStep cr c s) ha
    have hcrep : (c.cid, c) ∈ repo := getObject_mem hinv.hcur
    have hdrep : (a, d) ∈ repo := getObject_mem ha2
    exact hm (c.cid, c) hcrep a hap (a, d) hdrep rfl

theorem forall₂_mem_left {repo : WRepo} {l : List Nat} {cs : List Commit}
    (h : List.Forall₂ (fun a d => getObject repo a = some d) l cs) :
    ∀ a ∈ l, ∃ d ∈ cs, getObject repo a = some d := by
  induction h with
  | nil => intro a ha; cases ha
  | cons ha _ ih =>
    intro a ha2
    rcases List.mem_cons.mp ha2 with rfl | ha2
    · exact ⟨_, List.mem_cons_self _ _, ha⟩
    · obtain ⟨d, hd, hd2⟩ := ih a ha2
      exact ⟨d, List.mem_cons_of_mem _ hd, hd2⟩

theorem sorted_snoc_le {l : List Commit} {c q : Commit}
    (h : List.Sorted tsGe (l ++ [c])) (hq : q.ts ≤ c.ts) :
    List.Sorted tsGe ((l ++ [c]) ++ [q]) := by
  refine List.pairwise_append.mpr ⟨h, by simp, ?_⟩
  intro x hx y hy
  rw [show y = q by simpa using hy]
  rcases List.mem_append.mp hx with hx | hx
  · have hc : tsGe x c := (List.pairwise_append.mp h).2.2 x hx c (by simp)
    exact le_trans hq hc
  · rw [show x = c by simpa using hx]
    exact hq

theorem not_cond_split {cr : Int} {n : Int}
    (hcond : ¬(cr ≠ -1 ∧ cr ≤ n)) : cr = -1 ∨ n < cr := by
  by_cases h : cr = -1
  · exact Or.inl h
  · exact Or.inr (Int.not_le.mp fun hle => hcond ⟨h, hle⟩)

/-- The exit taken when the rebuilt queue is empty: the completed state
satisfies the walker postcondition and the log facts. -/
theorem roundEmpty_post (repo : WRepo) (root : Nat) (cr : Int) (c : Commit)
    (s : WState) (parents : List Commit)
    (hinv : EInv repo root cr c s)
    (hcond : ¬(cr ≠ -1 ∧ cr ≤ ((emitStep cr c s).count : Int)))
    (hf2 : List.Forall₂ (fun a d => getObject repo a = some d)
      (scheduleParents c (emitStep cr c s)).1 parents)
    (hq : (enqueueStep parents (scheduleParents c (emitStep cr c s)).2).queue = []) :
    WPost repo root cr
      (completeW (enqueueStep parents (scheduleParents c (emitStep cr c s)).2)) ∧
    LogOk repo
      (completeW (enqueueStep parents (scheduleParents c (emitStep cr c s)).2)) := by
  have hfreeS1 : completeFree (emitStep cr c s).events = true := by
    rw [events_emitStep, completeFree_update]; exact hinv.hfree
  have hqnil : s.queue ++ parents = [] := by
    have := List.perm_insertionSort tsGe (s.queue ++ parents)
    rw [show List.insertionSort tsGe (s.queue ++ parents) =
        (enqueueStep parents (scheduleParents c (emitStep cr c s)).2).queue by
      rw [enqueueStep_queue, scheduleParents_queue, emitStep_queue], hq] at this
    exact (List.Perm.nil_eq this).symm
  have hquenil : s.queue = [] := by
    rcases List.append_eq_nil.mp hqnil with ⟨h1, _⟩
    exact h1
  have hparnil : parents = [] := by
    rcases List.append_eq_nil.mp hqnil with ⟨_, h2⟩
    exact h2
  have hpcsnil : (scheduleParents c (emitStep cr c s)).1 = [] := by
    rw [hparnil] at hf2
    exact List.forall₂_nil_right_iff.mp hf2
  have hlogs := schedule_logfacts repo root cr c s hinv
  have hmem3 := roundFetch_mem repo root cr c s parents hinv
  have hnd : NodupParents repo →
      (cids (s.commits ++ [c]) ++
        cids (enqueueStep parents
          (scheduleParents c (emitStep cr c s)).2).queue).Nodup := by
    intro hnp
    rw [hq, cids_append]
    have := roundFetch_bignodup repo root cr c s hinv hnp
    have hleft := (List.nodup_append.mp this).1
    simpa [cids] using hleft
  constructor
  · refine ⟨completeW_running _, ?_, ?_, ?_, ?_, ?_, ?_, ?_, ?_, ?_, ?_, ?_⟩
    · rw [completeW_count, enqueueStep_count, scheduleParents_count, emitStep_count,
        completeW_commits, enqueueStep_commits, scheduleParents_commits,
        emitStep_commits]
      simp [hinv.hcount]
    · rw [completeW_commits, enqueueStep_commits, scheduleParents_commits,
        emitStep_commits]
      simp
    · rw [completeW_fetched, enqueueStep_fetched, scheduleParents_fetched,
        emitStep_fetched]
      exact List.mem_append_left _ hinv.hroot
    · refine ⟨(emitStep cr c s).events, ?_, hfreeS1⟩
      rw [completeW_events, enqueueStep_events, scheduleParents_events]
    · rw [completeW_events, enqueueStep_events, scheduleParents_events,
        lastUpdate_append_complete, events_emitStep, lastUpdate_append_update,
        completeW_commits, enqueueStep_commits, scheduleParents_commits,
        emitStep_commits]
    · intro a
      rw [completeW_fetched, completeW_commits, enqueueStep_commits,
        scheduleParents_commits, emitStep_commits, completeW_queue, hq]
      rw [hmem3 a, hquenil, hpcsnil, cids_append]
      constructor
      · rintro (h | h | h | h)
        · exact Or.inl (List.mem_append_left _ h)
        · simp [cids] at h
        · exact Or.inl (List.mem_append_right _ (by simp [cids, h]))
        · simp at h
      · rintro (h | h)
        · rcases List.mem_append.mp h with h | h
          · exact Or.inl h
          · exact Or.inr (Or.inr (Or.inl (by simpa [cids] using h)))
        · simp [cids] at h
    · intro a ha
      rw [completeW_fetched] at ha
      exact roundFetch_reach repo root cr c s parents hinv a ha
    · intro d hd
      rw [completeW_commits, enqueueStep_commits, scheduleParents_commits,
        emitStep_commits] at hd
      rcases List.mem_append.mp hd with hd | hd
      · exact hinv.hstored d hd
      · rw [show d = c by simpa using hd]
        exact hinv.hcur
    · intro hnp
      rw [completeW_commits, enqueueStep_commits, scheduleParents_commits,
        emitStep_commits, completeW_queue]
      exact hnd hnp
    · intro hm
      rw [completeW_commits, enqueueStep_commits, scheduleParents_commits,
        emitStep_commits]
      exact (hinv.hsorted hm).1
    · refine Or.inr ⟨by rw [completeW_queue, hq], ?_, ?_⟩
      · have := not_cond_split hcond
        rw [completeW_count, enqueueStep_count, scheduleParents_count]
        exact this
      · intro d hd p hp
        rw [completeW_commits, enqueueStep_commits, scheduleParents_commits,
          emitStep_commits] at hd
        rw [completeW_fetched]
        exact roundFetch_closure repo root cr c s parents hinv d hd p hp
  · refine ⟨?_, ?_, ?_, ?_, ?_⟩
    · intro e he
      rw [completeW_resolveLog, enqueueStep_resolveLog] at he
      exact hlogs.1 e he
    · intro e he
      rw [completeW_resolveLog, enqueueStep_resolveLog] at he
      rw [completeW_fetched, enqueueStep_fetched]
      exact hlogs.2.1 e he
    · intro hnp
      rw [completeW_resolveLog, enqueueStep_resolveLog]
      exact hlogs.2.2 hnp
    · intro e he
      rw [completeW_queueLog, enqueueStep_queueLog, scheduleParents_queueLog,
        emitStep_queueLog] at he
      rcases List.mem_append.mp he with he | he
      · exact hinv.hqlog e he
      · rw [show e = (cids (List.insertionSort tsGe
            ((scheduleParents c (emitStep cr c s)).2.queue ++ parents)),
            (scheduleParents c (emitStep cr c s)).2.fetched) by simpa using he]
        constructor
        · intro a ha
          rw [show List.insertionSort tsGe
              ((scheduleParents c (emitStep cr c s)).2.queue ++ parents) =
            (enqueueStep parents (scheduleParents c (emitStep cr c s)).2).queue
            from rfl, hq] at ha
          cases ha
        · intro hnp
          rw [show List.insertionSort tsGe
              ((scheduleParents c (emitStep cr c s)).2.queue ++ parents) =
            (enqueueStep parents (scheduleParents c (emitStep cr c s)).2).queue
            from rfl, hq]
          simp [cids]
    · intro hnp
      have := hnd hnp
      rw [completeW_commits, enqueueStep_commits, scheduleParents_commits,
        emitStep_commits]
      exact (List.nodup_append.mp this).1

/-- The recursion step: popping the newest commit from the rebuilt queue
re-establishes the round invariant and strictly shrinks the termination
measure. -/
theorem roundNext_inv (repo : WRepo) (root : Nat) (cr : Int) (c : Commit)
    (s : WState) (parents : List Commit) (q : Commit) (rest : List Commit)
    (hwf : WfRepo repo) (hinv : EInv repo root cr c s)
    (hcond : ¬(cr ≠ -1 ∧ cr ≤ ((emitStep cr c s).count : Int)))
    (hf2 : List.Forall₂ (fun a d => getObject repo a = some d)
      (scheduleParents c (emitStep cr c s)).1 parents)
    (hq : (enqueueStep parents (scheduleParents c (emitStep cr c s)).2).queue =
      q :: rest) :
    EInv repo root cr q
      { enqueueStep parents (scheduleParents c (emitStep cr c s)).2 with
        queue := rest } ∧
    muW repo { enqueueStep parents (scheduleParents c (emitStep cr c s)).2 with
        queue := rest } < muW repo s := by
  have hfreeS1 : completeFree (emitStep cr c s).events = true := by
    rw [events_emitStep, completeFree_update]; exact hinv.hfree
  have hlogs := schedule_logfacts repo root cr c s hinv
  have hmem3 := roundFetch_mem repo root cr c s parents hinv
  have hqperm := roundFetch_qperm repo cr c s parents hwf hf2
  have hqin : q ∈ (enqueueStep parents (scheduleParents c (emitStep cr c s)).2).queue := by
    rw [hq]; exact List.mem_cons_self q rest
  have hqcids : cids (enqueueStep parents
      (scheduleParents c (emitStep cr c s)).2).queue = q.cid :: cids rest := by
    rw [hq]; rfl
  have hmemq : ∀ a, a ∈ cids s.queue ∨ a ∈ (scheduleParents c (emitStep cr c s)).1 ↔
      (a = q.cid ∨ a ∈ cids rest) := by
    intro a
    rw [← List.mem_append, ← hqperm.mem_iff, hqcids, List.mem_cons]
  have hfet5 : ({ enqueueStep parents (scheduleParents c (emitStep cr c s)).2 with
      queue := rest } : WState).fetched =
      s.fetched ++ (scheduleParents c (emitStep cr c s)).1 := by
    show (enqueueStep parents (scheduleParents c (emitStep cr c s)).2).fetched = _
    rw [enqueueStep_fetched, scheduleParents_fetched, emitStep_fetched]
  constructor
  · refine ⟨?_, ?_, ?_, ?_, ?_, ?_, ?_, ?_, ?_, ?_, ?_, ?_, ?_, ?_, ?_, ?_, ?_, ?_⟩
    · show (enqueueStep parents (scheduleParents c (emitStep cr c s)).2).running = true
      rw [enqueueStep_running, scheduleParents_running, emitStep_running]
      exact hinv.hrun
    · show (enqueueStep parents (scheduleParents c (emitStep cr c s)).2).count =
        (enqueueStep parents (scheduleParents c (emitStep cr c s)).2).commits.length
      rw [enqueueStep_count, scheduleParents_count, emitStep_count,
        enqueueStep_commits, scheduleParents_commits, emitStep_commits]
      simp [hinv.hcount]
    · rw [hfet5]
      exact List.mem_append_left _ hinv.hroot
    · intro a
      rw [hfet5, show ({ enqueueStep parents
          (scheduleParents c (emitStep cr c s)).2 with queue := rest } : WState).commits =
        s.commits ++ [c] from rfl,
        show ({ enqueueStep parents
          (scheduleParents c (emitStep cr c s)).2 with queue := rest } : WState).queue =
        rest from rfl]
      have hm := hmem3 a
      rw [enqueueStep_fetched, scheduleParents_fetched, emitStep_fetched] at hm
      rw [hm, cids_append]
      constructor
      · rintro (h | h | h | h)
        · exact Or.inl (List.mem_append_left _ h)
        · rcases (hmemq a).mp (Or.inl h) with h2 | h2
          · exact Or.inr (Or.inr h2)
          · exact Or.inr (Or.inl h2)
        · exact Or.inl (List.mem_append_right _ (by simp [cids, h]))
        · rcases (hmemq a).mp (Or.inr h) with h2 | h2
          · exact Or.inr (Or.inr h2)
          · exact Or.inr (Or.inl h2)
      · rintro (h | h | h)
        · rcases List.mem_append.mp h with h2 | h2
          · exact Or.inl h2
          · exact Or.inr (Or.inr (Or.inl (by simpa [cids] using h2)))
        · rcases (hmemq a).mpr (Or.inr h) with h2 | h2
          · exact Or.inr (Or.inl h2)
          · exact Or.inr (Or.inr (Or.inr h2))
        · rcases (hmemq a).mpr (Or.inl h) with h2 | h2
          · exact Or.inr (Or.inl h2)
          · exact Or.inr (Or.inr (Or.inr h2))
    · intro a ha
      rw [hfet5] at ha
      have := roundFetch_reach repo root cr c s parents hinv a
      rw [enqueueStep_fetched, scheduleParents_fetched, emitStep_fetched] at this
      exact this ha
    · exact roundFetch_queue_stored repo root cr c s parents hwf hinv hf2 q hqin
    · intro d hd
      refine roundFetch_queue_stored repo root cr c s parents hwf hinv hf2 d ?_
      rw [hq]
      exact List.mem_cons_of_mem q hd
    · intro d hd
      show getObject repo d.cid = some d
      rw [show ({ enqueueStep parents
          (scheduleParents c (emitStep cr c s)).2 with queue := rest } : WState).commits =
        s.commits ++ [c] from rfl] at hd
      rcases List.mem_append.mp hd with hd | hd
      · exact hinv.hstored d hd
      · rw [show d = c by simpa using hd]
        exact hinv.hcur
    · intro d hd p hp
      rw [show ({ enqueueStep parents
          (scheduleParents c (emitStep cr c s)).2 with queue := rest } : WState).commits =
        s.commits ++ [c] from rfl] at hd
      rw [hfet5]
      have := roundFetch_closure repo root cr c s parents hinv d hd p hp
      rwa [enqueueStep_fetched, scheduleParents_fetched, emitStep_fetched] at this
    · show completeFree (emitStep cr c s).events = true
      exact hfreeS1
    · refine Or.inr ?_
      show lastUpdate (emitStep cr c s).events = some (emitList cr (s.commits ++ [c]))
      rw [events_emitStep, lastUpdate_append_update]
    · rcases not_cond_split hcond with h | h
      · exact Or.inl h
      · refine Or.inr (Or.inl ?_)
        show ((s.count + 1 : Nat) : Int) < cr
        rw [emitStep_count] at h
        exact_mod_cast h
    · intro hnp
      have hbig := roundFetch_bignodup repo root cr c s hinv hnp
      have hpermT : ((cids s.commits ++ [c.cid]) ++
          (cids s.queue ++ (scheduleParents c (emitStep cr c s)).1)).Perm
          (cids (s.commits ++ [c]) ++ cids rest ++ [q.cid]) := by
        rw [List.append_assoc (cids (s.commits ++ [c])) (cids rest) [q.cid],
          cids_append]
        refine List.Perm.append_left _ ?_
        refine (hqperm.symm.trans ?_)
        rw [hqcids]
        exact (@List.perm_append_comm Nat (cids rest) [q.cid]).symm
      exact hpermT.nodup hbig
    · intro e he
      show e.2 = true
      rw [show ({ enqueueStep parents
          (scheduleParents c (emitStep cr c s)).2 with queue := rest } : WState).resolveLog =
        (scheduleParents c (emitStep cr c s)).2.resolveLog from rfl] at he
      exact hlogs.1 e he
    · intro e he
      rw [show ({ enqueueStep parents
          (scheduleParents c (emitStep cr c s)).2 with queue := rest } : WState).resolveLog =
        (scheduleParents c (emitStep cr c s)).2.resolveLog from rfl] at he
      rw [hfet5]
      have := hlogs.2.1 e he
      rwa [scheduleParents_fetched, emitStep_fetched] at this
    · intro hnp
      rw [show ({ enqueueStep parents
          (scheduleParents c (emitStep cr c s)).2 with queue := rest } : WState).resolveLog =
        (scheduleParents c (emitStep cr c s)).2.resolveLog from rfl]
      exact hlogs.2.2 hnp
    · intro e he
      rw [show ({ enqueueStep parents
          (scheduleParents c (emitStep cr c s)).2 with queue := rest } : WState).queueLog =
        (enqueueStep parents (scheduleParents c (emitStep cr c s)).2).queueLog
        from rfl, enqueueStep_queueLog, scheduleParents_queueLog, emitStep_queueLog]
        at he
      rcases List.mem_append.mp he with he | he
      · exact hinv.hqlog e he
      · have he2 : e = (cids (List.insertionSort tsGe
            ((scheduleParents c (emitStep cr c s)).2.queue ++ parents)),
            (scheduleParents c (emitStep cr c s)).2.fetched) := by simpa using he
        rw [he2]
        have heq : List.insertionSort tsGe
            ((scheduleParents c (emitStep cr c s)).2.queue ++ parents) =
            (enqueueStep parents (scheduleParents c (emitStep cr c s)).2).queue := by
          rw [enqueueStep_queue]
        constructor
        · intro a ha
          rw [heq] at ha
          have := hqperm.mem_iff.mp ha
          rw [scheduleParents_fetched, emitStep_fetched]
          rcases List.mem_append.mp this with h2 | h2
          · exact List.mem_append_left _
              ((hinv.hmem a).mpr (Or.inr (Or.inl h2)))
          · exact List.mem_append_right _ h2
        · intro hnp
          rw [heq]
          refine hqperm.symm.nodup ?_
          have hbig := roundFetch_bignodup repo root cr c s hinv hnp
          exact (List.nodup_append.mp hbig).2.1
    · intro hm
      constructor
      · show List.Sorted tsGe ((s.commits ++ [c]) ++ [q])
        exact sorted_snoc_le ((hinv.hsorted hm).1)
          (roundFetch_queue_ts repo root cr c s parents hinv hf2 hm q hqin)
      · intro d hd
        show d.ts ≤ q.ts
        have hsort : List.Sorted tsGe
            (enqueueStep parents (scheduleParents c (emitStep cr c s)).2).queue := by
          rw [enqueueStep_queue]
          exact sorted_sortQueue _
        rw [hq] at hsort
        exact List.rel_of_sorted_cons hsort d hd
  · -- the measure strictly decreases
    have hlenq : rest.length + 1 = s.queue.length + parents.length := by
      have h1 : (enqueueStep parents
          (scheduleParents c (emitStep cr c s)).2).queue.length =
          (s.queue ++ parents).length := by
        rw [enqueueStep_queue, scheduleParents_queue, emitStep_queue]
        exact (List.perm_insertionSort tsGe _).length_eq
      rw [hq] at h1
      simpa using h1
    have hplen : parents.length = (scheduleParents c (emitStep cr c s)).1.length :=
      (List.Forall₂.length_eq hf2).symm
    rw [muW, muW, unfetchedCount, unfetchedCount, hfet5]
    rw [show ({ enqueueStep parents (scheduleParents c (emitStep cr c s)).2 with
        queue := rest } : WState).queue = rest from rfl]
    by_cases hpe : (scheduleParents c (emitStep cr c s)).1 = []
    · rw [hpe, List.append_nil]
      have hrl : rest.length < s.queue.length := by
        have hp0 : parents.length = 0 := by rw [hplen, hpe]; rfl
        omega
      exact Nat.add_lt_add_left hrl _
    · obtain ⟨a0, ha0⟩ := List.exists_mem_of_ne_nil _ hpe
      obtain ⟨d0, _, hd0⟩ := forall₂_mem_left hf2 a0 ha0
      have ha0repo : a0 ∈ repo.map (fun e => e.1) := getObject_mem_addrs hd0
      have ha0unf : a0 ∉ s.fetched := by
        have := pcs_unfetched c (emitStep cr c s) a0 ha0
        rwa [emitStep_fetched] at this
      have hstrict : (repo.map (fun e => e.1)).countP
          (fun a => !((s.fetched ++
            (scheduleParents c (emitStep cr c s)).1).contains a)) <
          (repo.map (fun e => e.1)).countP (fun a => !(s.fetched.contains a)) := by
        refine countP_strict ?_ ha0repo ?_ ?_
        · intro a _ hp2
          have hp2m : a ∉ s.fetched ∧ a ∉ (scheduleParents c (emitStep cr c s)).1 := by
            simpa using hp2
          simpa using hp2m.1
        · simpa using ha0unf
        · simp [List.mem_append_right s.fetched ha0]
      have hple : (scheduleParents c (emitStep cr c s)).1.length ≤ parentBound repo := by
        have h1 : (scheduleParents c (emitStep cr c s)).1.length ≤ c.parents.length := by
          rw [scheduleParents_fst]
          exact List.length_filter_le _ _
        exact le_trans h1 (parents_le_parentBound (getObject_mem hinv.hcur))
      have hkey : (repo.map (fun e => e.1)).countP
          (fun a => !((s.fetched ++
            (scheduleParents c (emitStep cr c s)).1).contains a)) *
            (parentBound repo + 1) + (parentBound repo + 1) ≤
          (repo.map (fun e => e.1)).countP (fun a => !(s.fetched.contains a)) *
            (parentBound repo + 1) := by
        have h1 : (repo.map (fun e => e.1)).countP
            (fun a => !((s.fetched ++
              (scheduleParents c (emitStep cr c s)).1).contains a)) + 1 ≤
            (repo.map (fun e => e.1)).countP (fun a => !(s.fetched.contains a)) :=
          hstrict
        calc (repo.map (fun e => e.1)).countP
              (fun a => !((s.fetched ++
                (scheduleParents c (emitStep cr c s)).1).contains a)) *
                (parentBound repo + 1) + (parentBound repo + 1)
            = ((repo.map (fun e => e.1)).countP
                (fun a => !((s.fetched ++
                  (scheduleParents c (emitStep cr c s)).1).contains a)) + 1) *
                (parentBound repo + 1) := by ring
          _ ≤ (repo.map (fun e => e.1)).countP
                (fun a => !(s.fetched.contains a)) * (parentBound repo + 1) :=
              Nat.mul_le_mul_right _ h1
      have hrl : rest.length < parentBound repo + 1 + s.queue.length := by
        rw [hplen] at hlenq
        omega
      calc (repo.map (fun e => e.1)).countP
            (fun a => !((s.fetched ++
              (scheduleParents c (emitStep cr c s)).1).contains a)) *
              (parentBound repo + 1) + rest.length
          < (repo.map (fun e => e.1)).countP
              (fun a => !((s.fetched ++
                (scheduleParents c (emitStep cr c s)).1).contains a)) *
              (parentBound repo + 1) + (parentBound repo + 1 + s.queue.length) :=
            Nat.add_lt_add_left hrl _
        _ = ((repo.map (fun e => e.1)).countP
              (fun a => !((s.fetched ++
                (scheduleParents c (emitStep cr c s)).1).contains a)) *
              (parentBound repo + 1) + (parentBound repo + 1)) + s.queue.length := by
            ring
        _ ≤ (repo.map (fun e => e.1)).countP
              (fun a => !(s.fetched.contains a)) * (parentBound repo + 1) +
              s.queue.length := Nat.add_le_add_right hkey _

/-- The state in which a parent-batch rejection aborts the run keeps the
log facts. -/
theorem roundFail_logOk (repo : WRepo) (root : Nat) (cr : Int) (c : Commit)
    (s : WState) (hinv : EInv repo root cr c s) :
    LogOk repo (scheduleParents c (emitStep cr c s)).2 := by
  have hlogs := schedule_logfacts repo root cr c s hinv
  refine ⟨hlogs.1, hlogs.2.1, hlogs.2.2, ?_, ?_⟩
  · intro e he
    rw [scheduleParents_queueLog, emitStep_queueLog] at he
    exact hinv.hqlog e he
  · intro hnp
    rw [scheduleParents_commits, emitStep_commits]
    have hperm := shuffle_perm (cids s.commits) (cids s.queue) c.cid
    have hnd := hperm.nodup (hinv.hnodup hnp)
    have hleft := (List.nodup_append.mp hnd).1
    simpa [cids] using hleft

/-- One full processing round from a state satisfying the invariant:
either the run completes normally with the postcondition, or a store
rejection aborts it with intact logs, or it proceeds to the next round
with the invariant re-established and a strictly smaller measure. -/
theorem processRound (repo : WRepo) (root : Nat) (cr : Int) (hwf : WfRepo repo)
    (c : Commit) (s : WState) (hinv : EInv repo root cr c s) :
    (∃ s2, (∀ fuel, processCommit repo cr (fuel + 1) c s = WRes.done s2) ∧
      WPost repo root cr s2 ∧ LogOk repo s2) ∨
    (∃ s2, (∀ fuel, processCommit repo cr (fuel + 1) c s = WRes.fail s2) ∧
      LogOk repo s2 ∧ ∃ p ∈ c.parents, getObject repo p = none) ∨
    (∃ c2 s2, (∀ fuel, processCommit repo cr (fuel + 1) c s =
        processCommit repo cr fuel c2 s2) ∧
      EInv repo root cr c2 s2 ∧ muW repo s2 < muW repo s) := by
  have hrn : ¬ (s.running = false) := by rw [hinv.hrun]; simp
  by_cases hcond : cr ≠ -1 ∧ cr ≤ ((emitStep cr c s).count : Int)
  · left
    obtain ⟨hpost, hlog⟩ := roundComplete_post repo root cr c s hinv hcond
    exact ⟨_, fun fuel => by rw [processCommit, if_neg hrn, if_pos hcond], hpost, hlog⟩
  · cases hres : resolveAll repo (scheduleParents c (emitStep cr c s)).1 with
    | none =>
      right; left
      obtain ⟨p, hp, hpn⟩ := resolveAll_none hres
      refine ⟨(scheduleParents c (emitStep cr c s)).2, ?_,
        roundFail_logOk repo root cr c s hinv, p, pcs_subset c (emitStep cr c s) hp,
        hpn⟩
      intro fuel
      rw [processCommit, if_neg hrn, if_neg hcond, hres]
    | some parents =>
      have hf2 := resolveAll_forall₂ hres
      cases hq : (enqueueStep parents (scheduleParents c (emitStep cr c s)).2).queue with
      | nil =>
        left
        obtain ⟨hpost, hlog⟩ := roundEmpty_post repo root cr c s parents hinv hcond
          hf2 hq
        refine ⟨_, ?_, hpost, hlog⟩
        intro fuel
        rw [processCommit, if_neg hrn, if_neg hcond, hres]
        simp only [hq]
      | cons q2 rest =>
        right; right
        obtain ⟨hinv2, hmu⟩ := roundNext_inv repo root cr c s parents q2 rest hwf hinv
          hcond hf2 hq
        refine ⟨q2, _, ?_, hinv2, hmu⟩
        intro fuel
        rw [processCommit, if_neg hrn, if_neg hcond, hres]
        simp only [hq]

/-- Whatever the fuel and however the run stops, the log facts hold from
any state satisfying the invariant. -/
theorem processCommit_logOk (repo : WRepo) (root : Nat) (cr : Int)
    (hwf : WfRepo repo) :
    ∀ (fuel : Nat) (c : Commit) (s : WState), EInv repo root cr c s →
      LogOk repo (stateOf (processCommit repo cr fuel c s)) := by
  intro fuel
  induction fuel with
  | zero =>
    intro c s hinv
    have hrn : ¬ (s.running = false) := by rw [hinv.hrun]; simp
    rw [processCommit, if_neg hrn]
    refine ⟨hinv.hrlogf, hinv.hrlogm, hinv.hrlognd, hinv.hqlog, ?_⟩
    intro hnp
    exact (List.nodup_append.mp ((List.nodup_append.mp (hinv.hnodup hnp)).1)).1
  | succ fuel ih =>
    intro c s hinv
    rcases processRound repo root cr hwf c s hinv with
      ⟨s2, heq, _, hlog⟩ | ⟨s2, heq, hlog, _⟩ | ⟨c2, s2, heq, hinv2, _⟩
    · rw [heq fuel]; exact hlog
    · rw [heq fuel]; exact hlog
    · rw [heq fuel]; exact ih c2 s2 hinv2

/-- On a well-formed store in which every stored parent resolves, a run
from an invariant state terminates normally for some fuel, and the final
state satisfies the postcondition. -/
theorem processCommit_terminates (repo : WRepo) (root : Nat) (cr : Int)
    (hwf : WfRepo repo) (hclosed : ClosedRepo repo) :
    ∀ (n : Nat) (c : Commit) (s : WState), muW repo s = n →
      EInv repo root cr c s →
      ∃ fuel s2, processCommit repo cr (fuel + 1) c s = WRes.done s2 ∧
        WPost repo root cr s2 ∧ LogOk repo s2 := by
  intro n
  induction n using Nat.strong_induction_on with
  | _ n ih =>
    intro c s hmu hinv
    rcases processRound repo root cr hwf c s hinv with
      ⟨s2, heq, hpost, hlog⟩ | ⟨s2, heq, hlog, p, hp, hpn⟩ |
      ⟨c2, s2, heq, hinv2, hlt⟩
    · exact ⟨0, s2, heq 0, hpost, hlog⟩
    · exfalso
      have hsome := hclosed (c.cid, c) (getObject_mem hinv.hcur) p hp
      rw [hpn] at hsome
      simp at hsome
    · obtain ⟨fuel, s3, heq2, hpost, hlog⟩ :=
        ih (muW repo s2) (hmu ▸ hlt) c2 s2 rfl hinv2
      exact ⟨fuel + 1, s3, by rw [heq (fuel + 1)]; exact heq2, hpost, hlog⟩

/-- The state right after the root resolution satisfies the invariant. -/
theorem initEInv (repo : WRepo) (root : Nat) (cr : Int) (c : Commit)
    (hwf : WfRepo repo) (hroot : getObject repo root = some c) :
    EInv repo root cr c (initWState root) := by
  have hcid : c.cid = root := getObject_cid hwf hroot
  refine ⟨rfl, rfl, by simp [initWState], ?_, ?_, ?_, ?_, ?_, ?_, rfl,
    Or.inl ⟨rfl, rfl⟩,
    by show cr = -1 ∨ ((0 : Nat) : Int) < cr ∨ cr < 1; omega,
    ?_, ?_, ?_, ?_, ?_, ?_⟩
  · intro a
    simp [initWState, cids, hcid, eq_comm]
  · intro a ha
    rw [show (initWState root).fetched = [root] from rfl] at ha
    rw [show a = root by simpa using ha]
    exact Reach.refl
  · rw [hcid]; exact hroot
  · intro d hd; simp [initWState] at hd
  · intro d hd; simp [initWState] at hd
  · intro d hd; simp [initWState] at hd
  · intro _; simp [initWState, cids]
  · intro e he
    have he2 : e = (root, true) := by simpa [initWState] using he
    rw [he2]
  · intro e he
    have he2 : e = (root, true) := by simpa [initWState] using he
    rw [he2]
    show root ∈ (initWState root).fetched
    simp [initWState]
  · intro _
    show (List.map (fun e => e.1) [(root, true)]).Nodup
    simp
  · intro e he; simp [initWState] at he
  · intro _
    refine ⟨by show List.Sorted tsGe ([] ++ [c]); simp, ?_⟩
    intro d hd; simp [initWState] at hd

/-- On a well-formed closed store with a resolvable root, the walker run
terminates normally for some fuel, with the postcondition and log facts
of the final state. -/
theorem runWalker_terminates (repo : WRepo) (root : Nat) (cr : Int)
    (hwf : WfRepo repo) (hclosed : ClosedRepo repo) (c : Commit)
    (hroot : getObject repo root = some c) :
    ∃ fuel s2, runWalker repo root cr fuel = WRes.done s2 ∧
      WPost repo root cr s2 ∧ LogOk repo s2 := by
  obtain ⟨fuel, s2, heq, hpost, hlog⟩ :=
    processCommit_terminates repo root cr hwf hclosed (muW repo (initWState root))
      c (initWState root) rfl (initEInv repo root cr c hwf hroot)
  exact ⟨fuel + 1, s2, by rw [runWalker, hroot]; exact heq, hpost, hlog⟩

/-- At an exit with an empty queue and the closure property, every
reachable address has been processed. -/
theorem post_complete_reach (repo : WRepo) (root : Nat) (cr : Int) (s2 : WState)
    (hpost : WPost repo root cr s2) (hqe : s2.queue = [])
    (hclo : ∀ d ∈ s2.commits, ∀ p ∈ d.parents, p ∈ s2.fetched) :
    ∀ a, Reach repo root a → a ∈ cids s2.commits := by
  have hfetc : ∀ a, a ∈ s2.fetched → a ∈ cids s2.commits := by
    intro a ha
    rcases (hpost.hmem a).mp ha with h | h
    · exact h
    · rw [hqe] at h; simp [cids] at h
  intro a hr
  induction hr with
  | refl => exact hfetc root hpost.hroot
  | step hra hobj hp ih =>
    rename_i b cb p
    obtain ⟨d, hd, hdc⟩ := (mem_cids b s2.commits).mp ih
    have hds := hpost.hstored d hd
    rw [hdc] at hds
    have hdcb : d = cb := by
      rw [hds] at hobj
      exact Option.some.inj hobj
    refine hfetc p (hclo d hd p ?_)
    rw [hdcb]
    exact hp

/-- C3 (amended): on a well-formed closed store whose commits list each
parent at most once, the unbounded walker run terminates, its final
emitted sequence (the last onUpdate payload, the full commit list for the
sentinel) contains every commit reachable from the root exactly once (its
addresses are exactly the reachable ones and no address repeats), and
onComplete fires exactly once, as the final event, after the queue has
become empty. -/
theorem claim_C3_amended (repo : WRepo) (root : Nat) (c : Commit)
    (hwf : WfRepo repo) (hclosed : ClosedRepo repo) (hnp : NodupParents repo)
    (hroot : getObject repo root = some c) :
    ∃ fuel s2, runWalker repo root (-1) fuel = WRes.done s2 ∧
      (∀ a, a ∈ cids s2.commits ↔ Reach repo root a) ∧
      (cids s2.commits).Nodup ∧
      s2.queue = [] ∧
      lastUpdate s2.events = some s2.commits ∧
      (∃ pre, s2.events = pre ++ [WEvent.complete false] ∧ completeFree pre = true) := by
  obtain ⟨fuel, s2, heq, hpost, hlog⟩ :=
    runWalker_terminates repo root (-1) hwf hclosed c hroot
  rcases hpost.hbranch with ⟨hne, _⟩ | ⟨hqe, _, hclo⟩
  · exact absurd rfl hne
  · refine ⟨fuel, s2, heq, ?_, hlog.hcommitnd hnp, hqe, ?_, hpost.hevents⟩
    · intro a
      constructor
      · intro h
        exact hpost.hreach a ((hpost.hmem a).mpr (Or.inl h))
      · exact post_complete_reach repo root (-1) s2 hpost hqe hclo a
    · have hl := hpost.hlast
      rwa [show emitList (-1) s2.commits = s2.commits by simp [emitList]] at hl

/-- Witness for C3 (amended) on the diamond graph. -/
theorem claim_C3_amended_witness :
    (WfRepo diamondRepo ∧ ClosedRepo diamondRepo ∧ NodupParents diamondRepo ∧
      getObject diamondRepo 1 = some { cid := 1, parents := [2, 3], ts := 100 }) ∧
    (∃ fuel s2, runWalker diamondRepo 1 (-1) fuel = WRes.done s2 ∧
      (∀ a, a ∈ cids s2.commits ↔ Reach diamondRepo 1 a) ∧
      (cids s2.commits).Nodup ∧
      s2.queue = [] ∧
      lastUpdate s2.events = some s2.commits ∧
      (∃ pre, s2.events = pre ++ [WEvent.complete false] ∧
        completeFree pre = true)) :=
  ⟨⟨by unfold WfRepo; decide, by unfold ClosedRepo; decide,
      by unfold NodupParents; decide, by decide⟩,
    claim_C3_amended diamondRepo 1 { cid := 1, parents := [2, 3], ts := 100 }
      (by unfold WfRepo; decide) (by unfold ClosedRepo; decide)
      (by unfold NodupParents; decide) (by decide)⟩

/-- C1 (amended): on a well-formed closed store whose committer
timestamps are monotone along parent edges (no parent newer than its
child), every finite run with target k at least 1 on a graph with at
least k reachable commits terminates with a final onUpdate sequence of
exactly k commits in descending committer-timestamp order, and onComplete
fires exactly once.  Without the monotonicity hypothesis the descending
order fails, as the recorded counterexample shows. -/
theorem claim_C1_amended (repo : WRepo) (root : Nat) (k : Int) (c : Commit)
    (S : List Nat) (hwf : WfRepo repo) (hclosed : ClosedRepo repo)
    (hmono : MonoTs repo) (hroot : getObject repo root = some c) (hk : 1 ≤ k)
    (hS : S.Nodup) (hSlen : k.toNat ≤ S.length)
    (hSreach : ∀ a ∈ S, Reach repo root a) :
    ∃ fuel s2 l, runWalker repo root k fuel = WRes.done s2 ∧
      lastUpdate s2.events = some l ∧ l.length = k.toNat ∧
      List.Sorted tsGe l ∧ completeCount s2.events = 1 := by
  obtain ⟨fuel, s2, heq, hpost, hlog⟩ :=
    runWalker_terminates repo root k hwf hclosed c hroot
  have hcc : completeCount s2.events = 1 := by
    obtain ⟨pre, hpre, hfree⟩ := hpost.hevents
    rw [hpre, completeCount, List.countP_append]
    have h0 := completeCount_of_free pre hfree
    rw [completeCount] at h0
    rw [show List.countP isCompleteEv [WEvent.complete false] = 1 from rfl]
    omega
  rcases hpost.hbranch with ⟨hne, hle, hexact⟩ | ⟨hqe, hlt, hclo⟩
  · have hcnt : (s2.count : Int) = k := hexact hk
    have hcntn : s2.count = k.toNat := by omega
    have hlen : s2.commits.length = k.toNat := by rw [← hpost.hcount]; exact hcntn
    refine ⟨fuel, s2, jsSliceTo k s2.commits, heq, ?_, ?_, ?_, hcc⟩
    · have hl := hpost.hlast
      rwa [show emitList k s2.commits = jsSliceTo k s2.commits by
        rw [emitList, if_neg hne]] at hl
    · rw [jsSliceTo, if_pos (by omega : (0 : Int) ≤ k), List.length_take, hlen]
      omega
    · rw [jsSliceTo, if_pos (by omega : (0 : Int) ≤ k)]
      exact List.Pairwise.sublist (List.take_sublist _ _) (hpost.hsorted hmono)
  · exfalso
    have hsub : ∀ a ∈ S, a ∈ cids s2.commits := fun a ha =>
      post_complete_reach repo root k s2 hpost hqe hclo a (hSreach a ha)
    have hlen2 : S.length ≤ (cids s2.commits).length := (hS.subperm hsub).length_le
    have hlen3 : (cids s2.commits).length = s2.commits.length := List.length_map _ _
    have hcnt : (s2.count : Int) < k := by
      rcases hlt with h | h
      · omega
      · exact h
    have hc2 := hpost.hcount
    omega

/-- Witness for C1 (amended): the diamond graph with target 2 and the
reachable addresses 1 and 3. -/
theorem claim_C1_amended_witness :
    (WfRepo diamondRepo ∧ ClosedRepo diamondRepo ∧ MonoTs diamondRepo ∧
      getObject diamondRepo 1 = some { cid := 1, parents := [2, 3], ts := 100 } ∧
      (1 : Int) ≤ 2 ∧ ([1, 3] : List Nat).Nodup ∧ (2 : Int).toNat ≤ ([1, 3] : List Nat).length) ∧
    (∃ fuel s2 l, runWalker diamondRepo 1 2 fuel = WRes.done s2 ∧
      lastUpdate s2.events = some l ∧ l.length = (2 : Int).toNat ∧
      List.Sorted tsGe l ∧ completeCount s2.events = 1) :=
  ⟨⟨by unfold WfRepo; decide, by unfold ClosedRepo; decide,
      by unfold MonoTs; decide, by decide, by decide, by decide, by decide⟩,
    claim_C1_amended diamondRepo 1 2 { cid := 1, parents := [2, 3], ts := 100 }
      [1, 3] (by unfold WfRepo; decide) (by unfold ClosedRepo; decide)
      (by unfold MonoTs; decide) (by decide) (by decide) (by decide)
      (by decide)
      (by
        intro a ha
        rcases List.mem_cons.mp ha with rfl | ha2
        · exact Reach.refl
        · rw [show a = 3 by simpa using ha2]
          exact Reach.step Reach.refl
            (show getObject diamondRepo 1 =
              some { cid := 1, parents := [2, 3], ts := 100 } by decide)
            (by decide))⟩

/-- C4 (amended): on a well-formed store whose commits list each parent
at most once, throughout every walker run (any target, any fuel, ending
however it ends) every store call is issued only for an address already
marked in the visited set at scheduling time, no address is ever resolved
twice, no commit is processed twice, and every snapshot of the rebuilt
queue is duplicate-free with all its addresses inside the visited set of
that moment.  Without the duplicate-free hypothesis an address can be
resolved twice, as the recorded counterexample shows. -/
theorem claim_C4_amended (repo : WRepo) (cid : Nat) (cr : Int) (fuel : Nat)
    (hwf : WfRepo repo) (hnp : NodupParents repo) :
    (∀ e ∈ (stateOf (runWalker repo cid cr fuel)).resolveLog, e.2 = true) ∧
    ((stateOf (runWalker repo cid cr fuel)).resolveLog.map (fun e => e.1)).Nodup ∧
    (cids (stateOf (runWalker repo cid cr fuel)).commits).Nodup ∧
    (∀ e ∈ (stateOf (runWalker repo cid cr fuel)).queueLog,
      (∀ a ∈ e.1, a ∈ e.2) ∧ e.1.Nodup) := by
  rw [runWalker]
  cases hroot : getObject repo cid with
  | none =>
    refine ⟨?_, ?_, ?_, ?_⟩
    · intro e he
      have he2 : e = (cid, true) := by simpa [initWState, stateOf] using he
      rw [he2]
    · show (List.map (fun e => e.1) [(cid, true)]).Nodup
      simp
    · show (cids []).Nodup
      simp [cids]
    · intro e he
      simp [initWState, stateOf] at he
  | some c =>
    have hlog := processCommit_logOk repo cid cr hwf fuel c (initWState cid)
      (initEInv repo cid cr c hwf hroot)
    exact ⟨hlog.hrlogf, hlog.hrlognd hnp, hlog.hcommitnd hnp,
      fun e he => ⟨(hlog.hqlog e he).1, (hlog.hqlog e he).2 hnp⟩⟩

/-- Witness for C4 (amended) on the diamond graph. -/
theorem claim_C4_amended_witness :
    (WfRepo diamondRepo ∧ NodupParents diamondRepo) ∧
    ((∀ e ∈ (stateOf (runWalker diamondRepo 1 (-1) 10)).resolveLog, e.2 = true) ∧
      ((stateOf (runWalker diamondRepo 1 (-1) 10)).resolveLog.map
        (fun e => e.1)).Nodup ∧
      (cids (stateOf (runWalker diamondRepo 1 (-1) 10)).commits).Nodup ∧
      (∀ e ∈ (stateOf (runWalker diamondRepo 1 (-1) 10)).queueLog,
        (∀ a ∈ e.1, a ∈ e.2) ∧ e.1.Nodup)) :=
  ⟨⟨by unfold WfRepo; decide, by unfold NodupParents; decide⟩,
    claim_C4_amended diamondRepo 1 (-1) 10 (by unfold WfRepo; decide)
      (by unfold NodupParents; decide)⟩
